import Mathlib

/-!
Shallow embedding of the chess-rs engine, verified against its design claims.

The repository contains two parallel engine cores:
* `src/logic.rs`  — board as a 64-slot array of `Option<ChessPiece>`, pieces
  record `first_move_at : Option<usize>`, board carries `moves_made`;
* `src/chess.rs`  — board as a `Vec<ChessPiece>`, pieces record
  `has_moved : bool` (this is the core `src/ai.rs` builds on).

They are embedded below in namespaces `Logic` and `Chess`.  Conventions:
* Rust `usize` is `Nat`, `isize` is `Int`; `as usize` casts wrap modulo 2^64
  (`usizeWrap`), matching release-build two's-complement casts.
* Rust tuple field `.0`/`.1` becomes Lean `Prod` field `.1`/`.2`.
* Rust array indexing panics when the index is out of range.  Read-only
  lookups (`piece_at`) model that case as an empty square; the out-of-range
  case is reachable only for pawn lookups past the board edge and for
  malformed positions, and no theorem below depends on that branch.
  `Move::perform` on the array board is `Option`-valued instead, because the
  panic there is observable behaviour that claim C8 quantifies over.
* The mutually recursive shape of `valid_moves`/`is_in_check` terminates in
  Rust because every nested call passes `ignore_check = true`, which skips
  the castling block and the post-move check filter.  The embedding
  stratifies this: the `ignore_check = true` instance is defined first
  (`valid_moves_true`), then check detection, then the full generator.
-/

set_option maxHeartbeats 1000000
set_option maxRecDepth 8000

/-- Wraps an integer into `usize` range, as Rust `as usize` casts do. -/
def usizeWrap (z : Int) : Nat := (z % 2 ^ 64).toNat

/-- Largest `usize` value, used by `Move::new_with_isize` for negative targets. -/
def usizeMax : Nat := 2 ^ 64 - 1

instance {ε α : Type} [DecidableEq ε] [DecidableEq α] : DecidableEq (Except ε α) := fun a b =>
  match a, b with
  | .error e, .error f =>
    if h : e = f then .isTrue (h ▸ rfl) else .isFalse (fun hh => h (by cases hh; rfl))
  | .ok x, .ok y =>
    if h : x = y then .isTrue (h ▸ rfl) else .isFalse (fun hh => h (by cases hh; rfl))
  | .error _, .ok _ => .isFalse (fun hh => Except.noConfusion hh)
  | .ok _, .error _ => .isFalse (fun hh => Except.noConfusion hh)

namespace Logic

/-- Mirrors `PieceType` from src/logic.rs. -/
inductive PieceType where
  | King | Queen | Rook | Bishop | Knight | Pawn
deriving DecidableEq

/-- Mirrors `PieceType::promotable_to`. -/
def PieceType.promotable_to : PieceType → Bool
  | .Pawn => false
  | .King => false
  | _ => true

/-- Order of `PieceType::iter()` (strum `EnumIter` follows declaration order). -/
def pieceTypeIter : List PieceType :=
  [.King, .Queen, .Rook, .Bishop, .Knight, .Pawn]

/-- Mirrors `PieceColor` from src/logic.rs. -/
inductive PieceColor where
  | White | Black
deriving DecidableEq

/-- Mirrors `PieceColor::opposite`. -/
def PieceColor.opposite : PieceColor → PieceColor
  | .White => .Black
  | .Black => .White

/-- Mirrors `ChessPiece` from src/logic.rs. -/
structure ChessPiece where
  piece_type : PieceType
  pos : Nat × Nat
  color : PieceColor
  first_move_at : Option Nat
deriving DecidableEq

/-- Mirrors `MoveType` from src/logic.rs. -/
inductive MoveType where
  | Normal
  | Castling (rook : Nat × Nat) (direction : Int)
  | EnPassant
  | Promotion (piece_type : PieceType)
deriving DecidableEq

/-- Mirrors `Move` from src/logic.rs. -/
structure Move where
  original : Nat × Nat
  target : Nat × Nat
  move_type : MoveType
deriving DecidableEq

/-- Mirrors `Move::new`. -/
def Move.new (original target : Nat × Nat) (move_type : MoveType) : Move :=
  ⟨original, target, move_type⟩

/-- Mirrors `Move::new_with_isize`: a negative coordinate becomes `usize::MAX`. -/
def Move.new_with_isize (original : Nat × Nat) (target : Int × Int)
    (move_type : MoveType) : Move :=
  if target.1 < 0 ∨ target.2 < 0 then ⟨original, (usizeMax, usizeMax), move_type⟩
  else ⟨original, (target.1.toNat, target.2.toNat), move_type⟩

/-- Mirrors `ChessBoard` from src/logic.rs (`pieces` has 64 slots). -/
structure ChessBoard where
  pieces : List (Option ChessPiece)
  turn : PieceColor
  moves_made : Nat
deriving DecidableEq

/-- Mirrors `ChessBoard::pos_to_idx`. -/
def pos_to_idx (pos : Nat × Nat) : Nat := pos.1 + pos.2 * 8

/-- Mirrors `ChessBoard::piece_at`.  Rust indexes the 64-array and panics for
an index ≥ 64; that branch (reachable only for positions off the grid) is
modelled as an empty square and no theorem relies on it. -/
def piece_at (b : ChessBoard) (pos : Nat × Nat) : Option ChessPiece :=
  (b.pieces.get? (pos_to_idx pos)).join

/-- Mirrors the body of `ChessPiece::add_in_dir`, with fuel for the ray walk.
Any direction with a nonzero component leaves the board within 8 steps, and
the degenerate rook direction `(0,0)` stops at the first occupied square (the
rook itself on well-formed boards), so fuel 8 reproduces the Rust loop. -/
def add_in_dir_go (dir : Int × Int) (pos : Nat × Nat) (b : ChessBoard) :
    Nat → Int × Int → List Move
  | 0, _ => []
  | fuel + 1, t =>
    if 0 ≤ t.1 ∧ t.1 < 8 ∧ 0 ≤ t.2 ∧ t.2 < 8 then
      Move.new pos (t.1.toNat, t.2.toNat) MoveType.Normal ::
        (if (piece_at b (t.1.toNat, t.2.toNat)).isSome then []
         else add_in_dir_go dir pos b fuel (t.1 + dir.1, t.2 + dir.2))
    else []

/-- Mirrors `ChessPiece::add_in_dir`. -/
def add_in_dir (dir : Int × Int) (pos : Nat × Nat) (b : ChessBoard) : List Move :=
  add_in_dir_go dir pos b 8 ((pos.1 : Int) + dir.1, (pos.2 : Int) + dir.2)

/-- Offsets `(dx, dy)` for the king's adjacent squares, in the order the Rust
nested `flat_map` over `[-1, 0, 1]` produces them. -/
def king_offsets : List (Int × Int) :=
  [(-1, -1), (-1, 0), (-1, 1), (0, -1), (0, 1), (1, -1), (1, 0), (1, 1)]

/-- Queen directions (`dx != 0 || dy != 0`), in Rust iteration order. -/
def queen_dirs : List (Int × Int) :=
  [(-1, -1), (-1, 0), (-1, 1), (0, -1), (0, 1), (1, -1), (1, 0), (1, 1)]

/-- Rook directions (`dx == 0 || dy == 0`), in Rust iteration order; note the
degenerate `(0, 0)` direction is included, exactly as in the source. -/
def rook_dirs : List (Int × Int) :=
  [(-1, 0), (0, -1), (0, 0), (0, 1), (1, 0)]

/-- Bishop directions (`dx != 0 && dy != 0`), in Rust iteration order. -/
def bishop_dirs : List (Int × Int) :=
  [(-1, -1), (-1, 1), (1, -1), (1, 1)]

/-- Knight offsets, in source order. -/
def knight_offsets : List (Int × Int) :=
  [(2, 1), (2, -1), (-2, 1), (-2, -1), (1, 2), (1, -2), (-1, 2), (-1, -2)]

/-- King adjacent pseudo-moves (the non-castling part of the King branch). -/
def king_adjacent_moves (p : ChessPiece) : List Move :=
  king_offsets.map (fun d =>
    Move.new_with_isize p.pos ((p.pos.1 : Int) + d.1, (p.pos.2 : Int) + d.2)
      MoveType.Normal)

/-- Knight pseudo-moves. -/
def knight_moves (p : ChessPiece) : List Move :=
  knight_offsets.map (fun d =>
    Move.new_with_isize p.pos ((p.pos.1 : Int) + d.1, (p.pos.2 : Int) + d.2)
      MoveType.Normal)

/-- Pawn pseudo-moves: forward push (promotions on the far rank), initial
double push, then diagonal captures — mirroring the Pawn branch of
`ChessPiece::valid_moves`. -/
def pawn_moves (p : ChessPiece) (b : ChessBoard) : List Move :=
  let direction : Int := if p.color = .White then -1 else 1
  let target_row : Nat := usizeWrap ((p.pos.2 : Int) + direction)
  let push : List Move :=
    if (piece_at b (p.pos.1, target_row)).isNone then
      (if target_row = 0 ∨ target_row = 7 then
        (pieceTypeIter.filter (·.promotable_to)).map (fun pt =>
          Move.new p.pos (p.pos.1, target_row) (MoveType.Promotion pt))
      else [Move.new p.pos (p.pos.1, target_row) MoveType.Normal]) ++
      (if p.first_move_at = none then
        let double_target_row : Nat := usizeWrap ((p.pos.2 : Int) + 2 * direction)
        if (piece_at b (p.pos.1, double_target_row)).isNone then
          [Move.new p.pos (p.pos.1, double_target_row) MoveType.Normal]
        else []
      else [])
    else []
  let captures : List Move :=
    [((-1 : Int), direction), (1, direction)].filterMap (fun d =>
      let t : Int × Int := ((p.pos.1 : Int) + d.1, (p.pos.2 : Int) + d.2)
      if 0 ≤ t.1 ∧ t.1 < 8 ∧ 0 ≤ t.2 ∧ t.2 < 8 then
        match piece_at b (t.1.toNat, t.2.toNat) with
        | some tp =>
          if tp.color ≠ p.color then
            some (Move.new p.pos (t.1.toNat, t.2.toNat) MoveType.Normal)
          else none
        | none => none
      else none)
  push ++ captures

/-- Pseudo-moves of a piece with `ignore_check = true` (no castling block). -/
def pseudo_moves_true (b : ChessBoard) (p : ChessPiece) : List Move :=
  match p.piece_type with
  | .King => king_adjacent_moves p
  | .Queen => queen_dirs.flatMap (fun dir => add_in_dir dir p.pos b)
  | .Rook => rook_dirs.flatMap (fun dir => add_in_dir dir p.pos b)
  | .Bishop => bishop_dirs.flatMap (fun dir => add_in_dir dir p.pos b)
  | .Knight => knight_moves p
  | .Pawn => pawn_moves p b

/-- Mirrors `Move::is_valid` with `ignore_check = true` (bounds, origin
occupancy, and the same-colour target rejection; no post-move check test). -/
def is_valid_true (b : ChessBoard) (m : Move) : Bool :=
  if 8 ≤ m.target.1 ∨ 8 ≤ m.target.2 then false
  else
    match piece_at b m.original with
    | none => false
    | some piece =>
      match piece_at b m.target with
      | some tp => decide (piece.color ≠ tp.color)
      | none => true

/-- Filtered per-piece moves with `ignore_check = true`. -/
def piece_valid_moves_true (b : ChessBoard) (p : ChessPiece) : List Move :=
  (pseudo_moves_true b p).filter (is_valid_true b)

/-- Pieces of one colour in board-array order (mirrors the `filter_map` in
`ChessBoard::valid_moves`). -/
def pieces_of (b : ChessBoard) (color : PieceColor) : List ChessPiece :=
  b.pieces.filterMap (fun op =>
    op.bind (fun p => if p.color = color then some p else none))

/-- Mirrors `ChessBoard::valid_moves(true, color)`. -/
def valid_moves_true (b : ChessBoard) (color : PieceColor) : List Move :=
  (pieces_of b color).flatMap (piece_valid_moves_true b)

/-- Mirrors `ChessBoard::is_in_check`: some opposing pseudo-move (generated
with `ignore_check = true`) targets a square holding a King.  The Rust code
does not compare the King's colour; the same-colour target filter makes the
targeted King necessarily of colour `color`. -/
def is_in_check (b : ChessBoard) (color : PieceColor) : Bool :=
  (valid_moves_true b color.opposite).any (fun m =>
    match piece_at b m.target with
    | some p => p.piece_type = .King
    | none => false)

/-- Mirrors `ChessBoard::is_pos_attacked` specialised to `ignore_check = true`,
the only instantiation the source uses (from the castling block). -/
def is_pos_attacked_true (b : ChessBoard) (pos : Nat × Nat)
    (attacking_color : PieceColor) : Bool :=
  (valid_moves_true b attacking_color).any (fun m => m.target = pos)

/-- Mirrors `Move::perform` from src/logic.rs.  `none` models the Rust panic
on an out-of-range array index (the only way perform can fail); every other
path flips the turn and increments `moves_made`.  `ChessPiece::move_to`
(write the piece at the target index with `first_move_at` set to the current
ply) is inlined at its two call sites. -/
def Move.perform (m : Move) (b : ChessBoard) : Option ChessBoard :=
  let moves_made := b.moves_made
  if pos_to_idx m.original < b.pieces.length then
    match piece_at b m.original with
    | none =>
      -- the take() found an empty slot: only the turn flip and ply increment run
      some { b with turn := b.turn.opposite, moves_made := moves_made + 1 }
    | some piece =>
      let ps0 := b.pieces.set (pos_to_idx m.original) none
      let step : Option (List (Option ChessPiece) × ChessPiece) :=
        match m.move_type with
        | .Castling rook direction =>
          if pos_to_idx rook < ps0.length then
            match (ps0.get? (pos_to_idx rook)).join with
            | some rook_piece =>
              let ps1 := ps0.set (pos_to_idx rook) none
              let rt : Nat × Nat := (usizeWrap ((m.target.1 : Int) - direction), m.target.2)
              if pos_to_idx rt < ps1.length then
                some (ps1.set (pos_to_idx rt)
                  (some { rook_piece with pos := rt, first_move_at := some moves_made }), piece)
              else none
            | none => some (ps0.set (pos_to_idx rook) none, piece)
          else none
        | .Promotion piece_type => some (ps0, { piece with piece_type := piece_type })
        | .EnPassant =>
          let t : Nat × Nat := (m.target.1, m.original.2)
          if pos_to_idx t < ps0.length then some (ps0.set (pos_to_idx t) none, piece)
          else none
        | .Normal => some (ps0, piece)
      match step with
      | none => none
      | some (ps1, piece1) =>
        if pos_to_idx m.target < ps1.length then
          some { pieces := ps1.set (pos_to_idx m.target)
                   (some { piece1 with pos := m.target, first_move_at := some moves_made }),
                 turn := b.turn.opposite, moves_made := moves_made + 1 }
        else none
  else none

/-- Mirrors `Move::is_valid`.  The check part re-reads the piece at the origin
exactly as the source does; a panic inside the hypothetical `perform` (never
reached for generated moves on well-formed boards) rejects the move. -/
def Move.is_valid (m : Move) (b : ChessBoard) (ignore_check : Bool) : Bool :=
  is_valid_true b m &&
  (ignore_check ||
    match piece_at b m.original, m.perform b with
    | some piece, some temp => !(is_in_check temp piece.color)
    | _, _ => false)

/-- Castling moves of a king (the `!ignore_check` block of the King branch):
for each same-coloured never-moved rook, when the king has never moved, is
not in check, every square strictly between king and rook (walking the
king's row) is empty, and the square the king first crosses is not attacked,
emit a Castling move two squares toward the rook. -/
def castling_moves (b : ChessBoard) (p : ChessPiece) : List Move :=
  if is_in_check b p.color = false ∧ p.first_move_at = none then
    (b.pieces.filterMap (fun op =>
      op.bind (fun r =>
        if r.piece_type = .Rook ∧ r.color = p.color ∧ r.first_move_at = none
        then some r else none))).filterMap (fun rook =>
      let direction : Int := ((rook.pos.1 : Int) - (p.pos.1 : Int)).sign
      let span : Nat := ((rook.pos.1 : Int) - (p.pos.1 : Int)).natAbs
      if ((List.range' 1 (span - 1)).all (fun i =>
            (piece_at b (usizeWrap ((p.pos.1 : Int) + (i : Int) * direction), p.pos.2)).isNone))
          ∧ is_pos_attacked_true b (usizeWrap ((p.pos.1 : Int) + direction), p.pos.2)
              p.color.opposite = false then
        some (Move.new_with_isize p.pos
          ((p.pos.1 : Int) + 2 * direction, (p.pos.2 : Int))
          (MoveType.Castling rook.pos direction))
      else none)
  else []

/-- Pseudo-moves of a piece for either `ignore_check` value (castling is
generated only when `ignore_check = false`). -/
def pseudo_moves (b : ChessBoard) (p : ChessPiece) (ignore_check : Bool) : List Move :=
  match p.piece_type with
  | .King => (if ignore_check then [] else castling_moves b p) ++ king_adjacent_moves p
  | _ => pseudo_moves_true b p

/-- Mirrors `ChessPiece::valid_moves`. -/
def piece_valid_moves (b : ChessBoard) (p : ChessPiece) (ignore_check : Bool) : List Move :=
  (pseudo_moves b p ignore_check).filter (fun m => m.is_valid b ignore_check)

/-- Mirrors `ChessBoard::valid_moves` (the rayon iterator, read off in board
array order). -/
def valid_moves (b : ChessBoard) (ignore_check : Bool) (color : PieceColor) : List Move :=
  (pieces_of b color).flatMap (fun p => piece_valid_moves b p ignore_check)

/-- Mirrors `ChessBoard::is_pos_attacked` at its general signature. -/
def is_pos_attacked (b : ChessBoard) (pos : Nat × Nat) (attacking_color : PieceColor)
    (ignore_check : Bool) : Bool :=
  (valid_moves b ignore_check attacking_color).any (fun m => m.target = pos)

/-- Lowercases an ASCII letter, as Rust `to_ascii_lowercase` does (non-ASCII
characters are untouched). -/
def asciiLower (c : Char) : Char :=
  if 'A' ≤ c ∧ c ≤ 'Z' then Char.ofNat (c.toNat + 32) else c

/-- Mirrors `PieceType::from_str` (a single kind letter, case-insensitive). -/
def piece_type_from_str (s : List Char) : Option PieceType :=
  match s with
  | [c] =>
    match asciiLower c with
    | 'k' => some .King
    | 'q' => some .Queen
    | 'r' => some .Rook
    | 'b' => some .Bishop
    | 'n' => some .Knight
    | 'p' => some .Pawn
    | _ => none
  | _ => none

/-- Processes one FEN rank (the inner `for c in line.chars()` loop); `none`
models the `unwrap` panic on an invalid piece letter and the index panic on
an overlong rank. -/
def fen_line (cells : List (Option ChessPiece)) (x y : Nat) :
    List Char → Option (List (Option ChessPiece))
  | [] => some cells
  | c :: cs =>
    if '1' ≤ c ∧ c ≤ '8' then fen_line cells (x + (c.toNat - 48)) y cs
    else
      match piece_type_from_str [c] with
      | none => none
      | some pt =>
        let color := if c.isUpper then PieceColor.White else PieceColor.Black
        if pos_to_idx (x, y) < cells.length then
          fen_line (cells.set (pos_to_idx (x, y)) (some ⟨pt, (x, y), color, none⟩))
            (x + 1) y cs
        else none

/-- Processes the '/'-separated FEN ranks, stopping after rank index 7. -/
def fen_lines (cells : List (Option ChessPiece)) (y : Nat) :
    List (List Char) → Option (List (Option ChessPiece))
  | [] => some cells
  | l :: ls =>
    match fen_line cells 0 y l with
    | none => none
    | some cells1 => if y + 1 ≥ 8 then some cells1 else fen_lines cells1 (y + 1) ls

/-- Mirrors `ChessBoard::set_from_fen`; `none` models the setup panics. -/
def set_from_fen (b : ChessBoard) (fen : List Char) : Option ChessBoard :=
  (fen_lines (List.replicate 64 none) 0 (fen.splitOn '/')).map
    (fun cells => { b with pieces := cells })

/-- Mirrors `ChessBoard::new` via `initialize_pieces` / `set_from_fen`.  The
start-position literal parses, so the fallback branch is unreachable. -/
def ChessBoard.new : ChessBoard :=
  match set_from_fen ⟨List.replicate 64 none, .White, 0⟩
      ("rnbqkbnr/pppppppp/8/8/8/8/PPPPPPPP/RNBQKBNR".toList) with
  | some b => b
  | none => ⟨List.replicate 64 none, .White, 0⟩

/-- Mirrors `pos_to_notation` (file letter then rank digit).  The Rust code
casts the column to `u8` before adding `b'a'` (wrapping) and formats
`8 - pos.1` in decimal; for an on-board square this is exactly one letter
`a`..`h` followed by one digit `1`..`8`. -/
def squareChars (pos : Nat × Nat) : List Char :=
  Char.ofNat ((pos.1 % 256 + 97) % 256) :: Nat.toDigits 10 (usizeWrap (8 - (pos.2 : Int)))

/-- Mirrors `notation_to_pos`: length-2 check, file via wrapping subtraction
of `'a'`, rank via `to_digit(10)` then wrapping `8 - digit`.  Note the source
performs no range check on either coordinate. -/
def charsToSquare (s : List Char) : Option (Nat × Nat) :=
  match s with
  | [c0, c1] =>
    if c1.isDigit then
      some (usizeWrap ((c0.toNat : Int) - 97), usizeWrap (8 - ((c1.toNat - 48 : Nat) : Int)))
    else none
  | _ => none

/-- Mirrors `impl ToString for Move`: origin and target squares, plus the
lowercase kind letter for a promotion. -/
def Move.to_chars (m : Move) : List Char :=
  match m.move_type with
  | .Promotion pt =>
    squareChars m.original ++ squareChars m.target ++
      [match pt with
       | .King => 'k' | .Queen => 'q' | .Rook => 'r'
       | .Bishop => 'b' | .Knight => 'n' | .Pawn => 'p']
  | _ => squareChars m.original ++ squareChars m.target

/-- Mirrors `Move::from_str`: a 4-character token is a Normal move, except
that a king moving two files is reconstructed as Castling with the rook
guessed at file 0 or 7 of the target row; a 5-character token is a Promotion
whose trailing letter names the kind.  The origin lookup of the 4-character
branch panics in Rust when the parsed origin is off the grid (file beyond
`h`); per the `piece_at` model that case yields an error here instead, and no
theorem depends on it. -/
def Move.from_str (s : List Char) (b : ChessBoard) : Except Unit Move :=
  match s.length with
  | 4 =>
    match charsToSquare (s.take 2), charsToSquare (s.drop 2) with
    | some original, some target =>
      match piece_at b original with
      | none => .error ()
      | some piece =>
        if piece.piece_type = .King ∧ ((original.1 : Int) - (target.1 : Int)).natAbs = 2 then
          .ok (Move.new original target
            (MoveType.Castling (if target.1 < 4 then 0 else 7, target.2)
              ((target.1 : Int) - (original.1 : Int)).sign))
        else .ok (Move.new original target MoveType.Normal)
    | _, _ => .error ()
  | 5 =>
    match charsToSquare (s.take 2), charsToSquare ((s.drop 2).take 2),
        piece_type_from_str (s.drop 4) with
    | some original, some target, some piece_type =>
      .ok (Move.new original target (MoveType.Promotion piece_type))
    | _, _, _ => .error ()
  | _ => .error ()

end Logic

namespace Chess

/-- Mirrors `PieceType` from src/chess.rs. -/
inductive PieceType where
  | King | Queen | Rook | Bishop | Knight | Pawn
deriving DecidableEq

/-- Mirrors `PieceType::promotable_to`. -/
def PieceType.promotable_to : PieceType → Bool
  | .Pawn => false
  | .King => false
  | _ => true

/-- Order of `PieceType::iter()` in src/chess.rs. -/
def pieceTypeIter : List PieceType :=
  [.King, .Queen, .Rook, .Bishop, .Knight, .Pawn]

/-- Mirrors `Color` from src/chess.rs. -/
inductive Color where
  | White | Black
deriving DecidableEq

/-- Mirrors `Color::opposite`. -/
def Color.opposite : Color → Color
  | .White => .Black
  | .Black => .White

/-- Mirrors `ChessPiece` from src/chess.rs (a `has_moved` flag instead of the
`first_move_at` ply of src/logic.rs). -/
structure ChessPiece where
  piece_type : PieceType
  pos : Nat × Nat
  color : Color
  has_moved : Bool
deriving DecidableEq

/-- Mirrors `MoveType` from src/chess.rs. -/
inductive MoveType where
  | Normal
  | Castling (rook : Nat × Nat) (direction : Int)
  | EnPassant
  | Promotion (piece_type : PieceType)
deriving DecidableEq

/-- Mirrors `Move` from src/chess.rs. -/
structure Move where
  original : Nat × Nat
  target : Nat × Nat
  move_type : MoveType
deriving DecidableEq

/-- Mirrors `Move::new`. -/
def Move.new (original target : Nat × Nat) (move_type : MoveType) : Move :=
  ⟨original, target, move_type⟩

/-- Mirrors `Move::new_with_isize`. -/
def Move.new_with_isize (original : Nat × Nat) (target : Int × Int)
    (move_type : MoveType) : Move :=
  if target.1 < 0 ∨ target.2 < 0 then ⟨original, (usizeMax, usizeMax), move_type⟩
  else ⟨original, (target.1.toNat, target.2.toNat), move_type⟩

/-- Mirrors `ChessBoard` from src/chess.rs: a vector of pieces and the side
to move (no ply counter in this core). -/
structure ChessBoard where
  pieces : List ChessPiece
  turn : Color
deriving DecidableEq

/-- Mirrors `ChessBoard::piece_at`: first piece in vector order sitting at
the position.  Total — this core never indexes an array. -/
def piece_at (b : ChessBoard) (pos : Nat × Nat) : Option ChessPiece :=
  b.pieces.find? (fun p => p.pos = pos)

/-- Mirrors the body of `ChessPiece::add_in_dir` with fuel, as in `Logic`. -/
def add_in_dir_go (dir : Int × Int) (pos : Nat × Nat) (b : ChessBoard) :
    Nat → Int × Int → List Move
  | 0, _ => []
  | fuel + 1, t =>
    if 0 ≤ t.1 ∧ t.1 < 8 ∧ 0 ≤ t.2 ∧ t.2 < 8 then
      Move.new pos (t.1.toNat, t.2.toNat) MoveType.Normal ::
        (if (piece_at b (t.1.toNat, t.2.toNat)).isSome then []
         else add_in_dir_go dir pos b fuel (t.1 + dir.1, t.2 + dir.2))
    else []

/-- Mirrors `ChessPiece::add_in_dir`. -/
def add_in_dir (dir : Int × Int) (pos : Nat × Nat) (b : ChessBoard) : List Move :=
  add_in_dir_go dir pos b 8 ((pos.1 : Int) + dir.1, (pos.2 : Int) + dir.2)

/-- King adjacent-square offsets, Rust iteration order. -/
def king_offsets : List (Int × Int) :=
  [(-1, -1), (-1, 0), (-1, 1), (0, -1), (0, 1), (1, -1), (1, 0), (1, 1)]

/-- Queen directions. -/
def queen_dirs : List (Int × Int) :=
  [(-1, -1), (-1, 0), (-1, 1), (0, -1), (0, 1), (1, -1), (1, 0), (1, 1)]

/-- Rook directions — the filter `dx == 0 || dy == 0` keeps `(0, 0)`. -/
def rook_dirs : List (Int × Int) :=
  [(-1, 0), (0, -1), (0, 0), (0, 1), (1, 0)]

/-- Bishop directions. -/
def bishop_dirs : List (Int × Int) :=
  [(-1, -1), (-1, 1), (1, -1), (1, 1)]

/-- Knight offsets, source order. -/
def knight_offsets : List (Int × Int) :=
  [(2, 1), (2, -1), (-2, 1), (-2, -1), (1, 2), (1, -2), (-1, 2), (-1, -2)]

/-- King adjacent pseudo-moves. -/
def king_adjacent_moves (p : ChessPiece) : List Move :=
  king_offsets.map (fun d =>
    Move.new_with_isize p.pos ((p.pos.1 : Int) + d.1, (p.pos.2 : Int) + d.2)
      MoveType.Normal)

/-- Knight pseudo-moves. -/
def knight_moves (p : ChessPiece) : List Move :=
  knight_offsets.map (fun d =>
    Move.new_with_isize p.pos ((p.pos.1 : Int) + d.1, (p.pos.2 : Int) + d.2)
      MoveType.Normal)

/-- Pawn pseudo-moves, mirroring the Pawn branch of `ChessPiece::valid_moves`
in src/chess.rs (double push gated on `!self.has_moved`). -/
def pawn_moves (p : ChessPiece) (b : ChessBoard) : List Move :=
  let direction : Int := if p.color = .White then -1 else 1
  let target_row : Nat := usizeWrap ((p.pos.2 : Int) + direction)
  let push : List Move :=
    if (piece_at b (p.pos.1, target_row)).isNone then
      (if target_row = 0 ∨ target_row = 7 then
        (pieceTypeIter.filter (·.promotable_to)).map (fun pt =>
          Move.new p.pos (p.pos.1, target_row) (MoveType.Promotion pt))
      else [Move.new p.pos (p.pos.1, target_row) MoveType.Normal]) ++
      (if p.has_moved = false then
        let double_target_row : Nat := usizeWrap ((p.pos.2 : Int) + 2 * direction)
        if (piece_at b (p.pos.1, double_target_row)).isNone then
          [Move.new p.pos (p.pos.1, double_target_row) MoveType.Normal]
        else []
      else [])
    else []
  let captures : List Move :=
    [((-1 : Int), direction), (1, direction)].filterMap (fun d =>
      let t : Int × Int := ((p.pos.1 : Int) + d.1, (p.pos.2 : Int) + d.2)
      if 0 ≤ t.1 ∧ t.1 < 8 ∧ 0 ≤ t.2 ∧ t.2 < 8 then
        match piece_at b (t.1.toNat, t.2.toNat) with
        | some tp =>
          if tp.color ≠ p.color then
            some (Move.new p.pos (t.1.toNat, t.2.toNat) MoveType.Normal)
          else none
        | none => none
      else none)
  push ++ captures

/-- Pseudo-moves with `ignore_check = true` (castling block skipped). -/
def pseudo_moves_true (b : ChessBoard) (p : ChessPiece) : List Move :=
  match p.piece_type with
  | .King => king_adjacent_moves p
  | .Queen => queen_dirs.flatMap (fun dir => add_in_dir dir p.pos b)
  | .Rook => rook_dirs.flatMap (fun dir => add_in_dir dir p.pos b)
  | .Bishop => bishop_dirs.flatMap (fun dir => add_in_dir dir p.pos b)
  | .Knight => knight_moves p
  | .Pawn => pawn_moves p b

/-- Mirrors `Move::is_valid` with `ignore_check = true`. -/
def is_valid_true (b : ChessBoard) (m : Move) : Bool :=
  if 8 ≤ m.target.1 ∨ 8 ≤ m.target.2 then false
  else
    match piece_at b m.original with
    | none => false
    | some piece =>
      match piece_at b m.target with
      | some tp => decide (piece.color ≠ tp.color)
      | none => true

/-- Filtered per-piece moves with `ignore_check = true`. -/
def piece_valid_moves_true (b : ChessBoard) (p : ChessPiece) : List Move :=
  (pseudo_moves_true b p).filter (is_valid_true b)

/-- Mirrors `ChessBoard::valid_moves(true, color)`. -/
def valid_moves_true (b : ChessBoard) (color : Color) : List Move :=
  (b.pieces.filter (fun p => p.color = color)).flatMap (piece_valid_moves_true b)

/-- Mirrors `ChessBoard::is_in_check` of src/chess.rs (this core checks both
the piece kind and the colour of the targeted King). -/
def is_in_check (b : ChessBoard) (color : Color) : Bool :=
  (valid_moves_true b color.opposite).any (fun m =>
    match piece_at b m.target with
    | some p => p.piece_type = .King ∧ p.color = color
    | none => false)

/-- Mirrors `ChessBoard::is_pos_attacked` specialised to `ignore_check = true`. -/
def is_pos_attacked_true (b : ChessBoard) (pos : Nat × Nat)
    (attacking_color : Color) : Bool :=
  (valid_moves_true b attacking_color).any (fun m => m.target = pos)

/-- Applies `f` to the first list element at position `pos`, leaving the rest
unchanged — the effect of mutating through `piece_at_mut`. -/
def update_first (l : List ChessPiece) (pos : Nat × Nat)
    (f : ChessPiece → ChessPiece) : List ChessPiece :=
  match l with
  | [] => []
  | p :: rest => if p.pos = pos then f p :: rest else p :: update_first rest pos f

/-- Mirrors `Move::perform` from src/chess.rs (total: this core only searches
the piece vector, it never indexes).  Steps: retain drops any piece on the
target square; if a piece sits at the origin it is relocated (`move_to` sets
`has_moved` and, for a promotion, the mutation of the same borrowed piece
changes its kind), a castling rook is relocated beside the king, an
en-passant victim is dropped; finally the turn flips. -/
def Move.perform (m : Move) (b : ChessBoard) : ChessBoard :=
  let ps0 := b.pieces.filter (fun p => p.pos ≠ m.target)
  let ps2 :=
    match piece_at ⟨ps0, b.turn⟩ m.original with
    | none => ps0
    | some _ =>
      let ps1 := update_first ps0 m.original (fun p =>
        { p with pos := m.target, has_moved := true,
                 piece_type := match m.move_type with
                   | .Promotion pt => pt
                   | _ => p.piece_type })
      match m.move_type with
      | .Castling rook direction =>
        update_first ps1 rook (fun rp =>
          { rp with pos := (usizeWrap ((m.target.1 : Int) - direction), m.target.2),
                    has_moved := true })
      | .EnPassant => ps1.filter (fun p => p.pos ≠ (m.target.1, m.original.2))
      | _ => ps1
  { pieces := ps2, turn := b.turn.opposite }

/-- Mirrors `Move::is_valid` of src/chess.rs. -/
def Move.is_valid (m : Move) (b : ChessBoard) (ignore_check : Bool) : Bool :=
  is_valid_true b m &&
  (ignore_check ||
    match piece_at b m.original with
    | some piece => !(is_in_check (m.perform b) piece.color)
    | none => false)

/-- Castling moves of the King branch (the `!ignore_check` block), as in
src/chess.rs: never-moved king not in check, per never-moved same-coloured
rook, squares strictly between empty along the king's row and the crossed
square unattacked. -/
def castling_moves (b : ChessBoard) (p : ChessPiece) : List Move :=
  if is_in_check b p.color = false ∧ p.has_moved = false then
    (b.pieces.filter (fun r =>
      r.piece_type = .Rook ∧ r.color = p.color ∧ r.has_moved = false)).filterMap
      (fun rook =>
        let direction : Int := ((rook.pos.1 : Int) - (p.pos.1 : Int)).sign
        let span : Nat := ((rook.pos.1 : Int) - (p.pos.1 : Int)).natAbs
        if ((List.range' 1 (span - 1)).all (fun i =>
              (piece_at b (usizeWrap ((p.pos.1 : Int) + (i : Int) * direction), p.pos.2)).isNone))
            ∧ is_pos_attacked_true b (usizeWrap ((p.pos.1 : Int) + direction), p.pos.2)
                p.color.opposite = false then
          some (Move.new_with_isize p.pos
            ((p.pos.1 : Int) + 2 * direction, (p.pos.2 : Int))
            (MoveType.Castling rook.pos direction))
        else none)
  else []

/-- Pseudo-moves for either `ignore_check` value. -/
def pseudo_moves (b : ChessBoard) (p : ChessPiece) (ignore_check : Bool) : List Move :=
  match p.piece_type with
  | .King => (if ignore_check then [] else castling_moves b p) ++ king_adjacent_moves p
  | _ => pseudo_moves_true b p

/-- Mirrors `ChessPiece::valid_moves`. -/
def piece_valid_moves (b : ChessBoard) (p : ChessPiece) (ignore_check : Bool) : List Move :=
  (pseudo_moves b p ignore_check).filter (fun m => m.is_valid b ignore_check)

/-- Mirrors `ChessBoard::valid_moves`. -/
def valid_moves (b : ChessBoard) (ignore_check : Bool) (color : Color) : List Move :=
  (b.pieces.filter (fun p => p.color = color)).flatMap
    (fun p => piece_valid_moves b p ignore_check)

/-- Mirrors `ChessBoard::is_pos_attacked` at its general signature. -/
def is_pos_attacked (b : ChessBoard) (pos : Nat × Nat) (attacking_color : Color)
    (ignore_check : Bool) : Bool :=
  (valid_moves b ignore_check attacking_color).any (fun m => m.target = pos)

/-- Mirrors `WinState` from src/chess.rs. -/
inductive WinState where
  | Checkmate (winner : Color)
  | Stalemate
deriving DecidableEq

/-- Mirrors `ChessBoard::win_state`: no legal move for the side to move means
checkmate for the opponent when in check, else stalemate. -/
def win_state (b : ChessBoard) : Option WinState :=
  if valid_moves b false b.turn = [] then
    some (if is_in_check b b.turn then .Checkmate b.turn.opposite else .Stalemate)
  else none

end Chess

namespace AI

open Chess

/-- Value of `i32::MIN`. -/
def i32Min : Int := -(2 ^ 31)

/-- Value of `i32::MAX`. -/
def i32Max : Int := 2 ^ 31 - 1

/-- Two's-complement wrap into `i32` range, the release-build semantics of
Rust `i32` arithmetic (debug builds panic on overflow instead; no theorem
below exercises an overflowing input). -/
def wrap32 (z : Int) : Int := (z + 2 ^ 31) % 2 ^ 32 - 2 ^ 31

/-- Addition of `i32` scores. -/
def i32add (a b : Int) : Int := wrap32 (a + b)

/-- Negation of an `i32` score (`-i32::MIN` wraps to `i32::MIN`). -/
def i32neg (a : Int) : Int := wrap32 (-a)

/-- Mirrors `BoardNode` from src/ai.rs.  The Rust `HashMap<Move, BoardNode>`
children map becomes an association list in insertion order; its iteration
order is unspecified in Rust and no theorem below depends on the order. -/
inductive BoardNode where
  | mk (board : ChessBoard) (score : Int) (children : List (Move × BoardNode)) (depth : Nat)

/-- Board stored at a node. -/
def BoardNode.board : BoardNode → ChessBoard
  | .mk b _ _ _ => b

/-- Score stored at a node. -/
def BoardNode.score : BoardNode → Int
  | .mk _ s _ _ => s

/-- Children of a node. -/
def BoardNode.children : BoardNode → List (Move × BoardNode)
  | .mk _ _ c _ => c

/-- Remaining-depth field of a node. -/
def BoardNode.depth : BoardNode → Nat
  | .mk _ _ _ d => d

/-- Node with its depth field replaced (the `self.tree.depth = depth`
assignment of `best_move`). -/
def BoardNode.with_depth (t : BoardNode) (d : Nat) : BoardNode :=
  .mk t.board t.score t.children d

/-- Leaf evaluation of `AI::evaluate_tree` (the `tree.depth == 0` branch):
terminal-state value, else signed material sum from the side to move's
perspective, with a +2 bonus for the mover's unmoved king. -/
def leaf_score (b : ChessBoard) : Int :=
  match win_state b with
  | some ws =>
    match ws with
    | .Checkmate winner => if winner = b.turn then i32Max else i32Min
    | .Stalemate => 0
  | none =>
    b.pieces.foldl (fun score p =>
      if p.color = b.turn then
        i32add score (match p.piece_type with
          | .Pawn => 1 | .Knight => 3 | .Bishop => 3 | .Rook => 5 | .Queen => 9
          | .King => if p.has_moved then 0 else 2)
      else
        i32add score (-(match p.piece_type with
          | .Pawn => 1 | .Knight => 3 | .Bishop => 3 | .Rook => 5 | .Queen => 9
          | .King => 0))) 0

/-- Mirrors `AI::fill_tree`: at positive depth, an empty children map is
populated with one child per legal move of the node's board (each child built
at depth − 1 and filled recursively); a non-empty map keeps its keys, the
node's depth field is updated, and the children are filled at depth − 1. -/
def fill_tree (t : BoardNode) : Nat → BoardNode
  | 0 => t
  | depth + 1 =>
    if t.children.isEmpty then
      let ms := valid_moves t.board false t.board.turn
      .mk t.board t.score
        (ms.map (fun m => (m, fill_tree (.mk (m.perform t.board) 0 [] depth) depth)))
        t.depth
    else
      .mk t.board t.score (t.children.map (fun mc => (mc.1, fill_tree mc.2 depth)))
        (depth + 1)

mutual

/-- Mirrors `AI::evaluate_tree`: depth-0 nodes get the leaf evaluation;
positive-depth nodes evaluate every child and score the `i32` negation of the
running maximum, which starts at `i32::MIN`. -/
def evaluate_tree : BoardNode → BoardNode
  | .mk board _s children depth =>
    if depth = 0 then .mk board (leaf_score board) children depth
    else
      let newChildren := evaluate_children children
      .mk board
        (i32neg (newChildren.foldl (fun acc mc => max acc mc.2.score) i32Min))
        newChildren depth

/-- Walk of the `children.iter_mut()` loop of `evaluate_tree`. -/
def evaluate_children : List (Move × BoardNode) → List (Move × BoardNode)
  | [] => []
  | (m, c) :: rest => (m, evaluate_tree c) :: evaluate_children rest

end

/-- Mirrors the selection of `best_move`: Rust `max_by_key` returns the last
maximal element in iteration order. -/
def max_by_score (l : List (Move × BoardNode)) : Option Move :=
  (l.foldl (fun acc mc =>
    match acc with
    | none => some mc
    | some best => if best.2.score ≤ mc.2.score then some mc else some best) none).map
    (fun mc => mc.1)

/-- Mirrors `AI::best_move` (the returned move; the updated cache state is not
needed by any claim).  `none` models the `expect` panic on an empty children
map. -/
def best_move (tree : BoardNode) (board : ChessBoard) (depth : Nat) : Option Move :=
  let t0 :=
    if tree.board = board then tree
    else
      match tree.children.find? (fun mc => mc.2.board = board) with
      | some mc => mc.2.with_depth depth
      | none => .mk board 0 [] depth
  max_by_score (evaluate_tree (fill_tree t0 depth)).children

mutual

/-- All nodes of a tree (the tree itself and, recursively, its children). -/
def subnodes : BoardNode → List BoardNode
  | .mk board s children depth =>
    .mk board s children depth :: subnodes_children children

/-- Nodes of a children list. -/
def subnodes_children : List (Move × BoardNode) → List BoardNode
  | [] => []
  | (_, c) :: rest => subnodes c ++ subnodes_children rest

end

mutual

/-- Cache-tree invariant: every child key is a legal move of its parent's
board.  Trees built by `AI::new` and `fill_tree` satisfy it. -/
def tree_inv : BoardNode → Bool
  | .mk board _ children _ => tree_inv_children board children

/-- Children part of `tree_inv`. -/
def tree_inv_children (board : ChessBoard) : List (Move × BoardNode) → Bool
  | [] => true
  | (m, c) :: rest =>
    decide (m ∈ valid_moves board false board.turn) && tree_inv c &&
      tree_inv_children board rest

end

mutual

/-- Search-tree shape produced by `fill_tree`: depth-0 nodes are childless. -/
def well_shaped : BoardNode → Bool
  | .mk _ _ children depth =>
    (if depth = 0 then children.isEmpty else true) && well_shaped_children children

/-- Children part of `well_shaped`. -/
def well_shaped_children : List (Move × BoardNode) → Bool
  | [] => true
  | (_, c) :: rest => well_shaped c && well_shaped_children rest

end

end AI

namespace Logic

/-- Well-formed array board: 64 slots, and every stored piece sits on the
grid at the slot matching its own position (`Move::perform` and
`set_from_fen` maintain this; the move generator relies on it when it looks
a generating piece up by its position). -/
def well_formed (b : ChessBoard) : Bool :=
  b.pieces.length = 64 &&
  (List.range 64).all (fun i =>
    match b.pieces.get? i with
    | some (some p) => decide (p.pos.1 < 8 ∧ p.pos.2 < 8 ∧ pos_to_idx p.pos = i)
    | _ => true)

/-- Castling moves whose rook field `Move::from_str` can reconstruct: the
rook recorded at file 0 when the king's destination file is below 4, at
file 7 otherwise, on the destination row.  Non-castling moves pass trivially. -/
def castling_standard (m : Move) : Bool :=
  match m.move_type with
  | .Castling r _ => r = ((if m.target.1 < 4 then (0 : Nat) else 7), m.target.2)
  | _ => true

/-- Board `7k/8/8/8/8/8/8/3RK3`: a never-moved white rook on d1 beside the
king.  The generator emits the exotic castling e1-c1 with this rook, which
`Move::from_str` cannot reconstruct. -/
def rook_d1_board : ChessBoard :=
  match set_from_fen ⟨List.replicate 64 none, .White, 0⟩ ("7k/8/8/8/8/8/8/3RK3".toList) with
  | some b => b
  | none => ⟨List.replicate 64 none, .White, 0⟩

/-- Board `k7/8/8/8/8/8/8/4K2R`: the standard white kingside castling layout,
used to witness the round-trip theorem on a castling move. -/
def castle_kingside_board : ChessBoard :=
  match set_from_fen ⟨List.replicate 64 none, .White, 0⟩ ("k7/8/8/8/8/8/8/4K2R".toList) with
  | some b => b
  | none => ⟨List.replicate 64 none, .White, 0⟩

/-- Board state after performing a move from an empty origin square on the
fresh board: only the turn flip and ply increment take effect. -/
def after_empty_origin : ChessBoard :=
  { ChessBoard.new with turn := .Black, moves_made := 1 }

end Logic

/-- File letters `a`..`h` of the move-token alphabet. -/
def fileChars : List Char := ['a', 'b', 'c', 'd', 'e', 'f', 'g', 'h']

/-- Rank digits `1`..`8` of the move-token alphabet. -/
def rankChars : List Char := ['1', '2', '3', '4', '5', '6', '7', '8']

namespace Chess

/-- Well-formed vector board: looking any stored piece up by its own position
finds that piece (so positions are unique in the vector). -/
def well_formed (b : ChessBoard) : Bool :=
  b.pieces.all (fun p => piece_at b p.pos = some p)

/-- Minimal board with only the two kings, white to move. -/
def two_kings_board : ChessBoard :=
  ⟨[⟨.King, (0, 7), .White, false⟩, ⟨.King, (7, 0), .Black, false⟩], .White⟩

/-- Board with white king e1 and rook h1 (castling layout), a black pawn g2
that already moved, and the black king e8.  The black pawn's forward push
targets g1 — the white king's castling destination — so the destination
square is pseudo-attacked, yet kingside castling is still generated. -/
def castle_attacked_dest_board : ChessBoard :=
  ⟨[⟨.King, (4, 7), .White, false⟩, ⟨.Rook, (7, 7), .White, false⟩,
    ⟨.Pawn, (6, 6), .Black, true⟩, ⟨.King, (4, 0), .Black, false⟩], .White⟩

/-- Board with a white pawn on b7 able to capture the black rook on a8 (the
farthest rank).  The generator emits that capture as a plain Normal move. -/
def pawn_capture_promotion_board : ChessBoard :=
  ⟨[⟨.Pawn, (1, 1), .White, true⟩, ⟨.Rook, (0, 0), .Black, true⟩,
    ⟨.King, (7, 7), .White, true⟩, ⟨.King, (7, 0), .Black, true⟩], .White⟩

end Chess

namespace AI

open Chess

/-- Concrete one-ply search tree over the two-kings board, used to witness the
negamax evaluation theorem. -/
def sample_tree : BoardNode :=
  .mk two_kings_board 0
    [(Move.new (0, 7) (0, 6) .Normal,
      .mk ((Move.new (0, 7) (0, 6) .Normal).perform two_kings_board) 5 [] 0)] 1

end AI

@[simp] theorem chess_move_new_original (o t : Nat × Nat) (mt : Chess.MoveType) :
    (Chess.Move.new o t mt).original = o := rfl

@[simp] theorem chess_move_new_target (o t : Nat × Nat) (mt : Chess.MoveType) :
    (Chess.Move.new o t mt).target = t := rfl

@[simp] theorem chess_move_new_move_type (o t : Nat × Nat) (mt : Chess.MoveType) :
    (Chess.Move.new o t mt).move_type = mt := rfl

theorem chess_new_with_isize_original (o : Nat × Nat) (t : Int × Int) (mt : Chess.MoveType) :
    (Chess.Move.new_with_isize o t mt).original = o := by
  unfold Chess.Move.new_with_isize
  split <;> rfl

theorem chess_new_with_isize_move_type (o : Nat × Nat) (t : Int × Int) (mt : Chess.MoveType) :
    (Chess.Move.new_with_isize o t mt).move_type = mt := by
  unfold Chess.Move.new_with_isize
  split <;> rfl

theorem chess_add_in_dir_go_shape (dir : Int × Int) (pos : Nat × Nat) (b : Chess.ChessBoard) :
    ∀ (fuel : Nat) (t : Int × Int) (m : Chess.Move), m ∈ Chess.add_in_dir_go dir pos b fuel t →
      m.original = pos ∧ m.move_type = .Normal := by
  intro fuel
  induction fuel with
  | zero => intro t m h; simp [Chess.add_in_dir_go] at h
  | succ n ih =>
    intro t m h
    rw [Chess.add_in_dir_go] at h
    split at h
    · rcases List.mem_cons.mp h with h1 | h2
      · subst h1; exact ⟨rfl, rfl⟩
      · split at h2
        · simp at h2
        · exact ih _ m h2
    · simp at h

theorem chess_pawn_moves_shape (p : Chess.ChessPiece) (b : Chess.ChessBoard)
    (m : Chess.Move) (h : m ∈ Chess.pawn_moves p b) :
    m.original = p.pos ∧
      (m.move_type = .Normal ∨ ∃ pt, m.move_type = .Promotion pt) := by
  simp only [Chess.pawn_moves, List.mem_append, List.mem_filterMap, List.mem_map,
    List.mem_singleton, List.mem_cons, List.not_mem_nil, or_false] at h
  rcases h with h | ⟨a, ha, hbody⟩
  · split_ifs at h <;>
      simp only [List.mem_append, List.mem_map, List.mem_singleton, List.mem_cons,
        List.not_mem_nil, or_false, List.mem_filter] at h <;>
      first
      | exact h.elim
      | (rcases h with ⟨pt, _, rfl⟩ | rfl <;> simp)
      | (rcases h with rfl | rfl <;> simp)
      | (rcases h with ⟨pt, _, rfl⟩; simp)
      | (rcases h with rfl; simp)
  · split at hbody
    · split at hbody
      · rename_i tp _
        split_ifs at hbody
        injection hbody with hb
        subst hb
        simp
      · exact absurd hbody (by simp)
    · exact absurd hbody (by simp)

theorem chess_castling_moves_mem (b : Chess.ChessBoard) (p : Chess.ChessPiece)
    (m : Chess.Move) (h : m ∈ Chess.castling_moves b p) :
    Chess.is_in_check b p.color = false ∧ p.has_moved = false ∧
    ∃ rook, rook ∈ b.pieces ∧ rook.piece_type = .Rook ∧ rook.color = p.color ∧
      rook.has_moved = false ∧
      m = Chess.Move.new_with_isize p.pos
            ((p.pos.1 : Int) + 2 * ((rook.pos.1 : Int) - (p.pos.1 : Int)).sign,
             (p.pos.2 : Int))
            (.Castling rook.pos (((rook.pos.1 : Int) - (p.pos.1 : Int)).sign)) ∧
      ((List.range' 1 ((((rook.pos.1 : Int) - (p.pos.1 : Int)).natAbs) - 1)).all (fun i =>
          (Chess.piece_at b
            (usizeWrap ((p.pos.1 : Int) +
              (i : Int) * ((rook.pos.1 : Int) - (p.pos.1 : Int)).sign), p.pos.2)).isNone)
        = true) ∧
      Chess.is_pos_attacked_true b
        (usizeWrap ((p.pos.1 : Int) + ((rook.pos.1 : Int) - (p.pos.1 : Int)).sign), p.pos.2)
        p.color.opposite = false := by
  unfold Chess.castling_moves at h
  split at h
  · rename_i hguard
    simp only [List.mem_filterMap, List.mem_filter] at h
    obtain ⟨rook, ⟨hrmem, hrpred⟩, hr⟩ := h
    simp only [decide_eq_true_eq] at hrpred
    obtain ⟨hrt, hrc, hrm⟩ := hrpred
    split at hr
    · rename_i hconds
      obtain ⟨hempty, hatk⟩ := hconds
      cases hr
      exact ⟨hguard.1, hguard.2, rook, hrmem, hrt, hrc, hrm, rfl, hempty,
        by simpa using hatk⟩
    · simp at hr
  · simp at h

theorem chess_pseudo_moves_original (b : Chess.ChessBoard) (p : Chess.ChessPiece)
    (ig : Bool) (m : Chess.Move) (h : m ∈ Chess.pseudo_moves b p ig) :
    m.original = p.pos := by
  obtain ⟨pt, pos, color, hmv⟩ := p
  cases pt <;>
    simp only [Chess.pseudo_moves, Chess.pseudo_moves_true] at h
  case King =>
    rcases List.mem_append.mp h with h | h
    · split at h
      · simp at h
      · obtain ⟨_, _, rook, _, _, _, _, hm, _⟩ := chess_castling_moves_mem b _ m h
        rw [hm, chess_new_with_isize_original]
    · obtain ⟨d, _, rfl⟩ := List.mem_map.mp h
      exact chess_new_with_isize_original _ _ _
  case Knight =>
    simp only [Chess.knight_moves, List.mem_map] at h
    obtain ⟨d, _, rfl⟩ := h
    exact chess_new_with_isize_original _ _ _
  case Pawn => exact (chess_pawn_moves_shape _ b m h).1
  all_goals
    obtain ⟨dir, _, hd⟩ := List.mem_flatMap.mp h
    rw [Chess.add_in_dir] at hd
    exact (chess_add_in_dir_go_shape dir _ b 8 _ m hd).1

theorem chess_pseudo_moves_castling (b : Chess.ChessBoard) (p : Chess.ChessPiece)
    (ig : Bool) (m : Chess.Move) (r : Nat × Nat) (d : Int)
    (h : m ∈ Chess.pseudo_moves b p ig) (hc : m.move_type = .Castling r d) :
    p.piece_type = .King ∧ m ∈ Chess.castling_moves b p := by
  obtain ⟨pt, pos, color, hmv⟩ := p
  cases pt <;>
    simp only [Chess.pseudo_moves, Chess.pseudo_moves_true] at h
  case King =>
    rcases List.mem_append.mp h with h | h
    · split at h
      · simp at h
      · exact ⟨rfl, h⟩
    · obtain ⟨off, _, rfl⟩ := List.mem_map.mp h
      rw [chess_new_with_isize_move_type] at hc
      exact absurd hc (by simp)
  case Knight =>
    simp only [Chess.knight_moves, List.mem_map] at h
    obtain ⟨off, _, rfl⟩ := h
    rw [chess_new_with_isize_move_type] at hc
    exact absurd hc (by simp)
  case Pawn =>
    rcases (chess_pawn_moves_shape _ b m h).2 with hn | ⟨pt2, hn⟩ <;>
      rw [hn] at hc <;> exact absurd hc (by simp)
  all_goals
    obtain ⟨dir, _, hd⟩ := List.mem_flatMap.mp h
    rw [Chess.add_in_dir] at hd
    have := (chess_add_in_dir_go_shape dir _ b 8 _ m hd).2
    rw [this] at hc
    exact absurd hc (by simp)

theorem chess_wf_piece_at (b : Chess.ChessBoard) (hwf : Chess.well_formed b = true)
    (p : Chess.ChessPiece) (hp : p ∈ b.pieces) : Chess.piece_at b p.pos = some p := by
  unfold Chess.well_formed at hwf
  rw [List.all_eq_true] at hwf
  simpa using hwf p hp

theorem chess_mem_valid_moves (b : Chess.ChessBoard) (ig : Bool) (c : Chess.Color)
    (m : Chess.Move) : m ∈ Chess.valid_moves b ig c ↔
      ∃ p, p ∈ b.pieces ∧ p.color = c ∧ m ∈ Chess.pseudo_moves b p ig ∧
        m.is_valid b ig = true := by
  unfold Chess.valid_moves Chess.piece_valid_moves
  simp [List.mem_flatMap, List.mem_filter, and_assoc]

theorem chess_is_valid_true_elim (b : Chess.ChessBoard) (m : Chess.Move)
    (h : Chess.is_valid_true b m = true) :
    m.target.1 < 8 ∧ m.target.2 < 8 ∧
      ∃ piece, Chess.piece_at b m.original = some piece ∧
        ∀ tp, Chess.piece_at b m.target = some tp → piece.color ≠ tp.color := by
  unfold Chess.is_valid_true at h
  split at h
  · exact absurd h (by simp)
  · rename_i hb
    push_neg at hb
    refine ⟨hb.1, hb.2, ?_⟩
    split at h
    · exact absurd h (by simp)
    · rename_i piece hpiece
      refine ⟨piece, hpiece, fun tp htp => ?_⟩
      rw [htp] at h
      simpa using h

theorem chess_is_valid_check (b : Chess.ChessBoard) (m : Chess.Move)
    (piece : Chess.ChessPiece) (hp : Chess.piece_at b m.original = some piece)
    (h : m.is_valid b false = true) :
    Chess.is_in_check (m.perform b) piece.color = false := by
  unfold Chess.Move.is_valid at h
  rw [Bool.and_eq_true] at h
  have h2 := h.2
  rw [Bool.or_eq_true] at h2
  rcases h2 with h2 | h2
  · exact absurd h2 (by simp)
  · rw [hp] at h2
    simpa using h2

/-- Claim C1: for every well-formed board and every move in the legal-move set
`valid_moves b false c`, performing the move yields a position in which side `c`
is not in check, i.e. the mover's own king is never left as a capture target of
any opposing pseudo-move. -/
theorem valid_moves_never_leave_own_king_in_check (b : Chess.ChessBoard) (c : Chess.Color)
    (m : Chess.Move) (hwf : Chess.well_formed b = true)
    (hm : m ∈ Chess.valid_moves b false c) :
    Chess.is_in_check (m.perform b) c = false := by
  obtain ⟨p, hp, hpc, hps, hv⟩ := (chess_mem_valid_moves b false c m).mp hm
  have horig := chess_pseudo_moves_original b p false m hps
  have hpa : Chess.piece_at b m.original = some p := by
    rw [horig]; exact chess_wf_piece_at b hwf p hp
  have := chess_is_valid_check b m p hpa hv
  rwa [hpc] at this

theorem valid_moves_never_leave_own_king_in_check_witness :
    Chess.well_formed Chess.two_kings_board = true ∧
    Chess.Move.new (0, 7) (0, 6) .Normal ∈ Chess.valid_moves Chess.two_kings_board false .White ∧
    Chess.is_in_check ((Chess.Move.new (0, 7) (0, 6) .Normal).perform Chess.two_kings_board)
      .White = false :=
  ⟨by decide, by decide,
    valid_moves_never_leave_own_king_in_check Chess.two_kings_board .White
      (Chess.Move.new (0, 7) (0, 6) .Normal) (by decide) (by decide)⟩

/-- Claim C10: every move returned by the move generator (for any color and
either value of the ignore-check flag) has both target coordinates within 0..8,
an origin square occupied by a piece of the generating color, a target square
not occupied by a same-colored piece, and an origin distinct from its target
(the rook's raw (0,0) direction self-move is filtered out by `is_valid`). -/
theorem generated_moves_well_formed (b : Chess.ChessBoard) (ig : Bool) (c : Chess.Color)
    (m : Chess.Move) (hwf : Chess.well_formed b = true)
    (hm : m ∈ Chess.valid_moves b ig c) :
    m.target.1 < 8 ∧ m.target.2 < 8 ∧
    (∃ p, Chess.piece_at b m.original = some p ∧ p.color = c) ∧
    (∀ q, Chess.piece_at b m.target = some q → q.color ≠ c) ∧
    m.original ≠ m.target := by
  obtain ⟨p, hp, hpc, hps, hv⟩ := (chess_mem_valid_moves b ig c m).mp hm
  have horig := chess_pseudo_moves_original b p ig m hps
  have hpa : Chess.piece_at b m.original = some p := by
    rw [horig]; exact chess_wf_piece_at b hwf p hp
  have hvt : Chess.is_valid_true b m = true := by
    unfold Chess.Move.is_valid at hv
    rw [Bool.and_eq_true] at hv
    exact hv.1
  obtain ⟨h1, h2, piece, hpiece, htp⟩ := chess_is_valid_true_elim b m hvt
  have hpp : piece = p := by rw [hpa] at hpiece; injection hpiece with hh; exact hh.symm
  subst hpp
  refine ⟨h1, h2, ⟨piece, hpa, hpc⟩, ?_, ?_⟩
  · intro q hq
    rw [← hpc]
    exact fun hqc => htp q hq hqc.symm
  · intro heq
    have : Chess.piece_at b m.target = some piece := by rw [← heq]; exact hpa
    exact htp piece this rfl

theorem generated_moves_well_formed_witness :
    Chess.well_formed Chess.two_kings_board = true ∧
    Chess.Move.new (0, 7) (1, 7) .Normal ∈ Chess.valid_moves Chess.two_kings_board false .White ∧
    ((1 : Nat) < 8 ∧ (7 : Nat) < 8 ∧
      (∃ p, Chess.piece_at Chess.two_kings_board (0, 7) = some p ∧ p.color = .White) ∧
      (∀ q, Chess.piece_at Chess.two_kings_board (1, 7) = some q → q.color ≠ .White) ∧
      ((0, 7) : Nat × Nat) ≠ (1, 7)) :=
  ⟨by decide, by decide,
    generated_moves_well_formed Chess.two_kings_board false .White
      (Chess.Move.new (0, 7) (1, 7) .Normal) (by decide) (by decide)⟩

/-- Claim C3, amended: whenever the legal-move generator emits a Castling move
on a well-formed board, the mover's king and the specific rook have each never
moved, the king is not currently in check (start square safe), every square
strictly between king and rook is empty, the square the king transits is not
attacked by the opposing side, and performing the move does not leave the mover
in check. The code does NOT test pre-move attack of the destination square
itself (only the transit square); destination safety comes solely from the
post-move check filter, which is weaker (see the counterexample). -/
theorem castling_generation_conditions (b : Chess.ChessBoard) (c : Chess.Color)
    (m : Chess.Move) (r : Nat × Nat) (d : Int) (hwf : Chess.well_formed b = true)
    (hm : m ∈ Chess.valid_moves b false c) (hc : m.move_type = .Castling r d) :
    ∃ king rook,
      Chess.piece_at b m.original = some king ∧ king.piece_type = .King ∧
      king.color = c ∧ king.has_moved = false ∧
      Chess.is_in_check b c = false ∧
      Chess.piece_at b r = some rook ∧ rook.piece_type = .Rook ∧ rook.color = c ∧
      rook.has_moved = false ∧
      d = ((r.1 : Int) - (m.original.1 : Int)).sign ∧
      ((List.range' 1 ((((r.1 : Int) - (m.original.1 : Int)).natAbs) - 1)).all (fun i =>
        (Chess.piece_at b
          (usizeWrap ((m.original.1 : Int) + (i : Int) * d), m.original.2)).isNone) = true) ∧
      Chess.is_pos_attacked_true b (usizeWrap ((m.original.1 : Int) + d), m.original.2)
        c.opposite = false ∧
      Chess.is_in_check (m.perform b) c = false := by
  obtain ⟨p, hp, hpc, hps, hv⟩ := (chess_mem_valid_moves b false c m).mp hm
  obtain ⟨hking, hcm⟩ := chess_pseudo_moves_castling b p false m r d hps hc
  obtain ⟨hchk, hmoved, rook, hrmem, hrt, hrc, hrm, hmeq, hempty, hatk⟩ :=
    chess_castling_moves_mem b p m hcm
  have horig : m.original = p.pos := chess_pseudo_moves_original b p false m hps
  have hmt : m.move_type =
      .Castling rook.pos (((rook.pos.1 : Int) - (p.pos.1 : Int)).sign) := by
    rw [hmeq, chess_new_with_isize_move_type]
  rw [hc] at hmt
  injection hmt with hr1 hd1
  have hpa : Chess.piece_at b m.original = some p := by
    rw [horig]; exact chess_wf_piece_at b hwf p hp
  have hra : Chess.piece_at b r = some rook := by
    rw [hr1]; exact chess_wf_piece_at b hwf rook hrmem
  have hpost := chess_is_valid_check b m p hpa hv
  rw [hpc] at hpost
  refine ⟨p, rook, hpa, hking, hpc, hmoved, by rw [← hpc]; exact hchk, hra,
    hrt, by rw [← hpc]; exact hrc, hrm, ?_, ?_, ?_, hpost⟩
  · rw [hr1, horig]; exact hd1
  · rw [hr1, horig, hd1]
    exact hempty
  · rw [horig, hd1, ← hpc]
    exact hatk

/-- Claim C3 counterexample: on a board where Black's pawn on g2 pseudo-attacks
g1, White's kingside castle e1-g1 is still generated as legal, so the original
claim that the king's destination square is never attacked is false: the pawn's
forward push targets g1 as a pseudo-move, but after castling it cannot actually
capture the king there, so the post-move check filter keeps the move. -/
theorem castling_generated_with_attacked_destination :
    Chess.Move.new (4, 7) (6, 7) (.Castling (7, 7) 1) ∈
      Chess.valid_moves Chess.castle_attacked_dest_board false .White ∧
    Chess.is_pos_attacked Chess.castle_attacked_dest_board (6, 7) .Black true = true :=
  ⟨by decide, by decide⟩

theorem castling_generation_conditions_witness :
    Chess.well_formed Chess.castle_attacked_dest_board = true ∧
    (Chess.Move.new (4, 7) (6, 7) (.Castling (7, 7) 1) ∈
      Chess.valid_moves Chess.castle_attacked_dest_board false .White) ∧
    (∃ king rook,
      Chess.piece_at Chess.castle_attacked_dest_board (4, 7) = some king ∧
      king.piece_type = .King ∧ king.color = .White ∧ king.has_moved = false ∧
      Chess.is_in_check Chess.castle_attacked_dest_board .White = false ∧
      Chess.piece_at Chess.castle_attacked_dest_board (7, 7) = some rook ∧
      rook.piece_type = .Rook ∧ rook.color = .White ∧ rook.has_moved = false ∧
      (1 : Int) = (((7 : Nat) : Int) - ((4 : Nat) : Int)).sign ∧
      ((List.range' 1 (((((7 : Nat) : Int) - ((4 : Nat) : Int)).natAbs) - 1)).all (fun i =>
        (Chess.piece_at Chess.castle_attacked_dest_board
          (usizeWrap (((4 : Nat) : Int) + (i : Int) * 1), 7)).isNone) = true) ∧
      Chess.is_pos_attacked_true Chess.castle_attacked_dest_board
        (usizeWrap (((4 : Nat) : Int) + 1), 7) Chess.Color.White.opposite = false ∧
      Chess.is_in_check
        ((Chess.Move.new (4, 7) (6, 7) (.Castling (7, 7) 1)).perform
          Chess.castle_attacked_dest_board) .White = false) :=
  ⟨by decide, by decide,
    castling_generation_conditions Chess.castle_attacked_dest_board .White
      (Chess.Move.new (4, 7) (6, 7) (.Castling (7, 7) 1)) (7, 7) 1
      (by decide) (by decide) rfl⟩

/-- Claim C4 refutation: a white pawn on b7 capturing a black rook on a8
(the farthest rank) is emitted as a single Normal move; the generator produces
no Promotion variants for the capture, contradicting the claim that every pawn
move onto the farthest rank is a Promotion and never a plain Normal move. The
code only promotes on the straight single forward step; diagonal captures onto
the last rank keep MoveType::Normal. -/
theorem pawn_capture_onto_last_rank_is_normal :
    Chess.Move.new (1, 1) (0, 0) .Normal ∈
      Chess.valid_moves Chess.pawn_capture_promotion_board false .White ∧
    ((Chess.valid_moves Chess.pawn_capture_promotion_board false .White).filter
      (fun m => m.target = (0, 0))).map (fun m => m.move_type) = [.Normal] :=
  ⟨by decide, by decide⟩

/-- Claim C5: on the freshly constructed initial board, the legal-move set for
the side to move (White) contains exactly 20 moves. -/
theorem initial_board_has_twenty_legal_moves :
    (Logic.valid_moves Logic.ChessBoard.new false Logic.ChessBoard.new.turn).length = 20 := by
  decide

/-- Claim C2 counterexample: at search depth 0, `best_move` finds no move even
though the side to move has legal moves: `fill_tree` only creates children when
depth > 0, so the evaluated tree's children list is empty and the Rust code's
`.max_by_key(...).expect("no moves")` panics (modeled as `none`). The claim's
"every search depth" is therefore false; it holds only for depth ≥ 1. -/
theorem best_move_depth_zero_returns_nothing :
    AI.best_move (.mk Chess.two_kings_board 0 [] 0) Chess.two_kings_board 0 = none ∧
    Chess.valid_moves Chess.two_kings_board false Chess.two_kings_board.turn ≠ [] :=
  ⟨by decide, by decide⟩

@[simp] theorem ai_evaluate_children_nil : AI.evaluate_children [] = [] := rfl

@[simp] theorem ai_evaluate_children_cons (m : Chess.Move) (c : AI.BoardNode)
    (rest : List (Chess.Move × AI.BoardNode)) :
    AI.evaluate_children ((m, c) :: rest) =
      (m, AI.evaluate_tree c) :: AI.evaluate_children rest := rfl

@[simp] theorem ai_tree_inv_children_nil (board : Chess.ChessBoard) :
    AI.tree_inv_children board [] = true := rfl

@[simp] theorem ai_tree_inv_children_cons (board : Chess.ChessBoard) (m : Chess.Move)
    (c : AI.BoardNode) (rest : List (Chess.Move × AI.BoardNode)) :
    AI.tree_inv_children board ((m, c) :: rest) =
      (decide (m ∈ Chess.valid_moves board false board.turn) && AI.tree_inv c &&
        AI.tree_inv_children board rest) := rfl

@[simp] theorem ai_tree_inv_mk (board : Chess.ChessBoard) (s : Int)
    (children : List (Chess.Move × AI.BoardNode)) (depth : Nat) :
    AI.tree_inv (.mk board s children depth) = AI.tree_inv_children board children := rfl

theorem ai_with_depth_board (t : AI.BoardNode) (d : Nat) :
    (t.with_depth d).board = t.board := by
  cases t; rfl

theorem ai_with_depth_children (t : AI.BoardNode) (d : Nat) :
    (t.with_depth d).children = t.children := by
  cases t; rfl

theorem ai_fill_tree_board (t : AI.BoardNode) (n : Nat) :
    (AI.fill_tree t n).board = t.board := by
  cases n with
  | zero => rfl
  | succ d =>
    unfold AI.fill_tree
    split <;> cases t <;> rfl

theorem ai_tree_inv_children_elim (board : Chess.ChessBoard) :
    ∀ (l : List (Chess.Move × AI.BoardNode)), AI.tree_inv_children board l = true →
      ∀ mc ∈ l, mc.1 ∈ Chess.valid_moves board false board.turn ∧ AI.tree_inv mc.2 = true := by
  intro l
  induction l with
  | nil => intro _ mc hmc; simp at hmc
  | cons hd tl ih =>
    intro h mc hmc
    obtain ⟨m, c⟩ := hd
    rw [ai_tree_inv_children_cons] at h
    simp only [Bool.and_eq_true, decide_eq_true_eq] at h
    rcases List.mem_cons.mp hmc with rfl | hmem
    · exact ⟨h.1.1, h.1.2⟩
    · exact ih h.2 mc hmem

theorem ai_tree_inv_elim (t : AI.BoardNode) (h : AI.tree_inv t = true) :
    ∀ mc ∈ t.children, mc.1 ∈ Chess.valid_moves t.board false t.board.turn ∧
      AI.tree_inv mc.2 = true := by
  cases t
  rw [ai_tree_inv_mk] at h
  exact ai_tree_inv_children_elim _ _ h

theorem ai_evaluate_children_keys (l : List (Chess.Move × AI.BoardNode)) :
    (AI.evaluate_children l).map Prod.fst = l.map Prod.fst := by
  induction l with
  | nil => rfl
  | cons hd tl ih =>
    obtain ⟨m, c⟩ := hd
    rw [ai_evaluate_children_cons]
    simp [ih]

theorem ai_evaluate_tree_keys (t : AI.BoardNode) :
    ((AI.evaluate_tree t).children).map Prod.fst = t.children.map Prod.fst := by
  cases t
  rw [AI.evaluate_tree]
  split
  · rfl
  · simpa using ai_evaluate_children_keys _

theorem ai_max_by_score_pick :
    ∀ (l : List (Chess.Move × AI.BoardNode)) (a : Chess.Move × AI.BoardNode),
      ∃ mc, (mc = a ∨ mc ∈ l) ∧
        (l.foldl (fun acc mc =>
          match acc with
          | none => some mc
          | some best => if best.2.score ≤ mc.2.score then some mc else some best)
          (some a)) = some mc := by
  intro l
  induction l with
  | nil => intro a; exact ⟨a, Or.inl rfl, rfl⟩
  | cons hd tl ih =>
    intro a
    rw [List.foldl_cons]
    dsimp only
    by_cases hle : a.2.score ≤ hd.2.score
    · obtain ⟨mc, hmem, heq⟩ := ih hd
      rw [if_pos hle]
      exact ⟨mc, Or.elim hmem (fun h => Or.inr (h ▸ List.mem_cons_self hd tl))
        (fun h => Or.inr (List.mem_cons_of_mem hd h)), heq⟩
    · obtain ⟨mc, hmem, heq⟩ := ih a
      rw [if_neg hle]
      exact ⟨mc, Or.elim hmem Or.inl (fun h => Or.inr (List.mem_cons_of_mem hd h)), heq⟩

theorem ai_max_by_score_mem (l : List (Chess.Move × AI.BoardNode)) (h : l ≠ []) :
    ∃ mc ∈ l, AI.max_by_score l = some mc.1 := by
  obtain ⟨a, rest, rfl⟩ := List.exists_cons_of_ne_nil h
  unfold AI.max_by_score
  rw [List.foldl_cons]
  dsimp only
  obtain ⟨mc, hmem, heq⟩ := ai_max_by_score_pick rest a
  have h2 : (List.foldl (fun acc mc =>
      match acc with
      | none => some mc
      | some best => if best.2.score ≤ mc.2.score then some mc else some best)
      (some a) rest).map (fun mc => mc.1) = some mc.1 := by
    rw [heq]; rfl
  refine ⟨mc, ?_, h2⟩
  rcases hmem with rfl | hmem
  · exact List.mem_cons_self _ _
  · exact List.mem_cons_of_mem _ hmem

theorem ai_fill_tree_key_closure (t : AI.BoardNode) (d : Nat)
    (hch : ∀ mc ∈ t.children, mc.1 ∈ Chess.valid_moves t.board false t.board.turn) :
    (∀ mc ∈ (AI.fill_tree t (d + 1)).children,
      mc.1 ∈ Chess.valid_moves t.board false t.board.turn) ∧
    ((AI.fill_tree t (d + 1)).children = [] →
      (Chess.valid_moves t.board false t.board.turn = [] ∧ t.children = [])) := by
  unfold AI.fill_tree
  split
  · rename_i hempty
    cases t with
    | mk board s children depth =>
      constructor
      · intro mc hmc
        simp only [AI.BoardNode.children] at hmc ⊢
        obtain ⟨m, hmmem, rfl⟩ := List.mem_map.mp hmc
        simpa using hmmem
      · intro hnil
        simp only [AI.BoardNode.children] at hnil ⊢
        rw [List.map_eq_nil_iff] at hnil
        exact ⟨hnil, by simpa using hempty⟩
  · rename_i hnonempty
    cases t with
    | mk board s children depth =>
      constructor
      · intro mc hmc
        simp only [AI.BoardNode.children] at hmc ⊢
        obtain ⟨mc0, hmc0, rfl⟩ := List.mem_map.mp hmc
        exact hch mc0 hmc0
      · intro hnil
        simp only [AI.BoardNode.children] at hnil
        rw [List.map_eq_nil_iff] at hnil
        simp only [AI.BoardNode.children, List.isEmpty_iff] at hnonempty
        exact absurd hnil hnonempty

/-- Claim C2, amended: for any search depth ≥ 1, any cache tree satisfying the
invariant that every node's children are keyed by legal moves of that node's
board (`tree_inv`, which holds for all trees `fill_tree` builds), and any board
whose side to move has at least one legal move, `best_move` returns some move
contained in the legal-move set of the supplied board. -/
theorem best_move_returns_legal_move (tree : AI.BoardNode) (board : Chess.ChessBoard)
    (depth : Nat) (hinv : AI.tree_inv tree = true) (hd : 1 ≤ depth)
    (hne : Chess.valid_moves board false board.turn ≠ []) :
    ∃ m, AI.best_move tree board depth = some m ∧
      m ∈ Chess.valid_moves board false board.turn := by
  obtain ⟨d, rfl⟩ : ∃ d, depth = d + 1 :=
    ⟨depth - 1, (Nat.succ_pred_eq_of_pos hd).symm⟩
  have key : ∀ t0 : AI.BoardNode, t0.board = board →
      (∀ mc ∈ t0.children, mc.1 ∈ Chess.valid_moves board false board.turn) →
      ∃ m, AI.max_by_score (AI.evaluate_tree (AI.fill_tree t0 (d + 1))).children = some m ∧
        m ∈ Chess.valid_moves board false board.turn := by
    intro t0 hb hch
    have hcl := ai_fill_tree_key_closure t0 d (by rw [hb]; exact hch)
    have hnonempty : (AI.evaluate_tree (AI.fill_tree t0 (d + 1))).children ≠ [] := by
      intro hnil
      have : ((AI.evaluate_tree (AI.fill_tree t0 (d + 1))).children).map Prod.fst = [] := by
        rw [hnil]; rfl
      rw [ai_evaluate_tree_keys] at this
      rw [List.map_eq_nil_iff] at this
      exact hne (hb ▸ (hcl.2 this).1)
    obtain ⟨mc, hmem, heq⟩ := ai_max_by_score_mem _ hnonempty
    refine ⟨mc.1, heq, ?_⟩
    have hkey : mc.1 ∈ ((AI.evaluate_tree (AI.fill_tree t0 (d + 1))).children).map Prod.fst :=
      List.mem_map_of_mem Prod.fst hmem
    rw [ai_evaluate_tree_keys] at hkey
    obtain ⟨mc0, hmc0, hfst⟩ := List.mem_map.mp hkey
    have := hcl.1 mc0 hmc0
    rw [hb] at this
    exact hfst ▸ this
  unfold AI.best_move
  split
  · rename_i hb
    exact key tree hb (fun mc hmc => hb ▸ (ai_tree_inv_elim tree hinv mc hmc).1)
  · split
    · rename_i mc hfind
      have hmem := List.mem_of_find?_eq_some hfind
      have hpred := List.find?_some hfind
      simp only [decide_eq_true_eq] at hpred
      have hchild := (ai_tree_inv_elim tree hinv mc hmem).2
      refine key (mc.2.with_depth (d + 1)) (by rw [ai_with_depth_board, hpred]) ?_
      intro mc2 hmc2
      rw [ai_with_depth_children] at hmc2
      have := (ai_tree_inv_elim mc.2 hchild mc2 hmc2).1
      rwa [hpred] at this
    · exact key (.mk board 0 [] (d + 1)) rfl (by intro mc hmc; simp [AI.BoardNode.children] at hmc)

theorem best_move_returns_legal_move_witness :
    AI.tree_inv (.mk Chess.two_kings_board 0 [] 0) = true ∧
    Chess.valid_moves Chess.two_kings_board false Chess.two_kings_board.turn ≠ [] ∧
    (∃ m, AI.best_move (.mk Chess.two_kings_board 0 [] 0) Chess.two_kings_board 1 = some m ∧
      m ∈ Chess.valid_moves Chess.two_kings_board false Chess.two_kings_board.turn) :=
  ⟨by decide, by decide,
    best_move_returns_legal_move (.mk Chess.two_kings_board 0 [] 0) Chess.two_kings_board 1
      (by decide) (by decide) (by decide)⟩

@[simp] theorem ai_subnodes_mk (board : Chess.ChessBoard) (s : Int)
    (children : List (Chess.Move × AI.BoardNode)) (depth : Nat) :
    AI.subnodes (.mk board s children depth) =
      .mk board s children depth :: AI.subnodes_children children := rfl

@[simp] theorem ai_subnodes_children_nil : AI.subnodes_children [] = [] := rfl

@[simp] theorem ai_subnodes_children_cons (m : Chess.Move) (c : AI.BoardNode)
    (rest : List (Chess.Move × AI.BoardNode)) :
    AI.subnodes_children ((m, c) :: rest) =
      AI.subnodes c ++ AI.subnodes_children rest := rfl

@[simp] theorem ai_well_shaped_mk (board : Chess.ChessBoard) (s : Int)
    (children : List (Chess.Move × AI.BoardNode)) (depth : Nat) :
    AI.well_shaped (.mk board s children depth) =
      ((if depth = 0 then children.isEmpty else true) &&
        AI.well_shaped_children children) := rfl

@[simp] theorem ai_well_shaped_children_nil : AI.well_shaped_children [] = true := rfl

@[simp] theorem ai_well_shaped_children_cons (m : Chess.Move) (c : AI.BoardNode)
    (rest : List (Chess.Move × AI.BoardNode)) :
    AI.well_shaped_children ((m, c) :: rest) =
      (AI.well_shaped c && AI.well_shaped_children rest) := rfl

theorem ai_subnodes_self (t : AI.BoardNode) : t ∈ AI.subnodes t := by
  cases t
  rw [ai_subnodes_mk]
  exact List.mem_cons_self _ _

theorem ai_well_shaped_children_elim :
    ∀ (l : List (Chess.Move × AI.BoardNode)), AI.well_shaped_children l = true →
      ∀ mc ∈ l, AI.well_shaped mc.2 = true := by
  intro l
  induction l with
  | nil => intro _ mc hmc; simp at hmc
  | cons hd tl ih =>
    intro h mc hmc
    obtain ⟨m, c⟩ := hd
    rw [ai_well_shaped_children_cons, Bool.and_eq_true] at h
    rcases List.mem_cons.mp hmc with rfl | hmem
    · exact h.1
    · exact ih h.2 mc hmem

theorem ai_mem_subnodes_children_evaluate :
    ∀ (l : List (Chess.Move × AI.BoardNode)) (t2 : AI.BoardNode),
      t2 ∈ AI.subnodes_children (AI.evaluate_children l) →
      ∃ mc ∈ l, t2 ∈ AI.subnodes (AI.evaluate_tree mc.2) := by
  intro l
  induction l with
  | nil => intro t2 h; simp at h
  | cons hd tl ih =>
    intro t2 h
    obtain ⟨m, c⟩ := hd
    rw [ai_evaluate_children_cons, ai_subnodes_children_cons] at h
    rcases List.mem_append.mp h with h | h
    · exact ⟨(m, c), List.mem_cons_self _ _, h⟩
    · obtain ⟨mc, hmem, hsub⟩ := ih t2 h
      exact ⟨mc, List.mem_cons_of_mem _ hmem, hsub⟩

theorem ai_evaluate_tree_scores_aux :
    ∀ (n : Nat) (t : AI.BoardNode), sizeOf t ≤ n → AI.well_shaped t = true →
      ∀ t2 ∈ AI.subnodes (AI.evaluate_tree t),
        (t2.depth = 0 → t2.score = AI.leaf_score t2.board) ∧
        (t2.depth ≠ 0 →
          t2.score =
            AI.i32neg ((t2.children.map (fun mc => mc.2.score)).foldl max AI.i32Min)) := by
  intro n
  induction n with
  | zero =>
    intro t hsz
    obtain ⟨board, s, children, depth⟩ := t
    simp at hsz
  | succ n ih =>
    intro t hsz hshape t2 ht2
    obtain ⟨board, s, children, depth⟩ := t
    rw [ai_well_shaped_mk, Bool.and_eq_true] at hshape
    rw [AI.evaluate_tree] at ht2
    by_cases hdep : depth = 0
    · rw [if_pos hdep] at ht2
      have hnil : children = [] := by
        rw [if_pos hdep] at hshape
        exact List.isEmpty_iff.mp hshape.1
      subst hnil
      rw [ai_subnodes_mk, ai_subnodes_children_nil] at ht2
      rcases List.mem_cons.mp ht2 with rfl | h0
      · exact ⟨fun _ => rfl, fun hne => absurd hdep hne⟩
      · simp at h0
    · rw [if_neg hdep] at ht2
      rw [ai_subnodes_mk] at ht2
      rcases List.mem_cons.mp ht2 with rfl | hsub
      · refine ⟨fun h0 => absurd h0 hdep, fun _ => ?_⟩
        simp only [AI.BoardNode.children, AI.BoardNode.score]
        rw [List.foldl_map]
      · obtain ⟨mc, hmem, hmsub⟩ := ai_mem_subnodes_children_evaluate children t2 hsub
        have hws := ai_well_shaped_children_elim children hshape.2 mc hmem
        have hszc : sizeOf mc.2 ≤ n := by
          have hlt := List.sizeOf_lt_of_mem hmem
          obtain ⟨m0, c0⟩ := mc
          simp at hlt hsz ⊢
          omega
        exact ih mc.2 hszc hws t2 hmsub

/-- Claim C9: after `evaluate_tree` runs on a well-shaped search tree (one
whose depth-0 nodes are childless, as `fill_tree` produces), every node of the
result with remaining depth 0 is scored by the leaf evaluation of its board,
and every node with remaining depth > 0 has a score equal to the i32 negation
of the maximum of its children's scores (the fold starts from i32::MIN, exactly
as the Rust `-(children.map(score).max().unwrap_or(i32::MIN))`). -/
theorem evaluate_tree_scores (t t2 : AI.BoardNode) (hshape : AI.well_shaped t = true)
    (ht2 : t2 ∈ AI.subnodes (AI.evaluate_tree t)) :
    (t2.depth = 0 → t2.score = AI.leaf_score t2.board) ∧
    (t2.depth ≠ 0 →
      t2.score =
        AI.i32neg ((t2.children.map (fun mc => mc.2.score)).foldl max AI.i32Min)) :=
  ai_evaluate_tree_scores_aux (sizeOf t) t (Nat.le_refl _) hshape t2 ht2

theorem evaluate_tree_scores_witness :
    AI.well_shaped AI.sample_tree = true ∧
    (((AI.evaluate_tree AI.sample_tree).depth = 0 →
      (AI.evaluate_tree AI.sample_tree).score =
        AI.leaf_score (AI.evaluate_tree AI.sample_tree).board) ∧
    ((AI.evaluate_tree AI.sample_tree).depth ≠ 0 →
      (AI.evaluate_tree AI.sample_tree).score =
        AI.i32neg ((((AI.evaluate_tree AI.sample_tree).children).map
          (fun mc => mc.2.score)).foldl max AI.i32Min))) :=
  ⟨by decide,
    evaluate_tree_scores AI.sample_tree (AI.evaluate_tree AI.sample_tree) (by decide)
      (ai_subnodes_self _)⟩

theorem usizeWrap_eq_toNat (z : Int) (h1 : 0 <= z) (h2 : z < 2 ^ 64) :
    usizeWrap z = z.toNat := by
  unfold usizeWrap
  rw [Int.emod_eq_of_lt h1 h2]

theorem charsToSquare_in_range (c0 c1 : Char) (h0 : c0 ∈ fileChars) (h1 : c1 ∈ rankChars) :
    Logic.charsToSquare [c0, c1] = some (c0.toNat - 97, 8 - (c1.toNat - 48)) := by
  fin_cases h0 <;> fin_cases h1 <;> decide

/-- Claim C6 counterexample: the 5-character token "i1a1q", whose file
character 'i' is outside 'a'..'h', is parsed successfully as a Promotion move
rather than rejected: the 5-character branch of `from_str` never validates the
square coordinates nor looks at the board, so the claim that out-of-range
file/rank characters always yield an error is false. -/
theorem from_str_accepts_out_of_range_five_char_token :
    Logic.Move.from_str ("i1a1q".toList) Logic.ChessBoard.new =
      .ok (Logic.Move.new (8, 7) (0, 7) (.Promotion .Queen)) := by decide

/-- Claim C6, amended: for tokens whose file characters are within 'a'..'h'
and rank characters within '1'..'8', `from_str` errs on a 4-character token
whose origin square holds no piece, and on a 5-character token whose trailing
character is not a valid piece-kind letter. Out-of-range characters are NOT
rejected (a 5-character token still parses; the 4-character branch panics in
Rust on the out-of-bounds board index). -/
theorem from_str_error_conditions (b : Logic.ChessBoard) (c0 c1 c2 c3 c4 : Char)
    (h0 : c0 ∈ fileChars) (h1 : c1 ∈ rankChars)
    (h2 : c2 ∈ fileChars) (h3 : c3 ∈ rankChars) :
    (Logic.piece_at b (c0.toNat - 97, 8 - (c1.toNat - 48)) = none →
      Logic.Move.from_str [c0, c1, c2, c3] b = .error ()) ∧
    (Logic.piece_type_from_str [c4] = none →
      Logic.Move.from_str [c0, c1, c2, c3, c4] b = .error ()) := by
  constructor
  · intro hempty
    unfold Logic.Move.from_str
    simp only [List.length_cons, List.length_nil, List.take, List.drop]
    rw [charsToSquare_in_range c0 c1 h0 h1, charsToSquare_in_range c2 c3 h2 h3]
    simp [hempty]
  · intro hkind
    unfold Logic.Move.from_str
    simp only [List.length_cons, List.length_nil, List.take, List.drop]
    rw [charsToSquare_in_range c0 c1 h0 h1, charsToSquare_in_range c2 c3 h2 h3]
    simp [hkind]

theorem from_str_error_conditions_witness :
    ('e' ∈ fileChars) ∧ ('4' ∈ rankChars) ∧ ('5' ∈ rankChars) ∧
    (Logic.piece_at Logic.ChessBoard.new (4, 4) = none →
      Logic.Move.from_str ("e4e5".toList) Logic.ChessBoard.new = .error ()) ∧
    (Logic.piece_type_from_str ['z'] = none →
      Logic.Move.from_str ("e4e5z".toList) Logic.ChessBoard.new = .error ()) :=
  ⟨by decide, by decide, by decide,
    (from_str_error_conditions Logic.ChessBoard.new 'e' '4' 'e' '5' 'z'
      (by decide) (by decide) (by decide) (by decide)).1,
    (from_str_error_conditions Logic.ChessBoard.new 'e' '4' 'e' '5' 'z'
      (by decide) (by decide) (by decide) (by decide)).2⟩

/-- Claim C8 counterexample: `perform` on a move whose origin square lies off
the board does not complete: the Rust code indexes `board.board[pos_to_index(..)]`
out of bounds and panics (modeled as `none`), so the claim does not hold
literally "for every board and every move". -/
theorem perform_fails_on_off_board_square :
    (Logic.Move.new (0, 8) (0, 0) .Normal).perform Logic.ChessBoard.new = none := by decide

/-- Claim C8, amended: whenever `perform` completes (i.e. no out-of-bounds
board index is touched), the resulting board's side to move is the opposite of
the previous one and `moves_made` has increased by exactly one, unconditionally
in the move — including when no piece occupies the origin square. -/
theorem perform_flips_turn_and_increments_ply (b b2 : Logic.ChessBoard) (m : Logic.Move)
    (h : m.perform b = some b2) :
    b2.turn = b.turn.opposite ∧ b2.moves_made = b.moves_made + 1 := by
  unfold Logic.Move.perform at h
  dsimp only at h
  repeat' split at h
  all_goals
    first
    | exact Option.noConfusion h
    | (cases h; exact ⟨rfl, rfl⟩)

theorem perform_flips_turn_and_increments_ply_witness :
    (Logic.Move.new (4, 4) (0, 0) .Normal).perform Logic.ChessBoard.new =
      some Logic.after_empty_origin ∧
    Logic.after_empty_origin.turn = Logic.ChessBoard.new.turn.opposite ∧
    Logic.after_empty_origin.moves_made = Logic.ChessBoard.new.moves_made + 1 :=
  ⟨by decide,
    perform_flips_turn_and_increments_ply Logic.ChessBoard.new Logic.after_empty_origin
      (Logic.Move.new (4, 4) (0, 0) .Normal) (by decide)⟩

@[simp] theorem logic_move_new_original (o t : Nat × Nat) (mt : Logic.MoveType) :
    (Logic.Move.new o t mt).original = o := rfl

@[simp] theorem logic_move_new_target (o t : Nat × Nat) (mt : Logic.MoveType) :
    (Logic.Move.new o t mt).target = t := rfl

@[simp] theorem logic_move_new_move_type (o t : Nat × Nat) (mt : Logic.MoveType) :
    (Logic.Move.new o t mt).move_type = mt := rfl

theorem logic_new_with_isize_original (o : Nat × Nat) (t : Int × Int) (mt : Logic.MoveType) :
    (Logic.Move.new_with_isize o t mt).original = o := by
  unfold Logic.Move.new_with_isize
  split <;> rfl

theorem logic_new_with_isize_move_type (o : Nat × Nat) (t : Int × Int) (mt : Logic.MoveType) :
    (Logic.Move.new_with_isize o t mt).move_type = mt := by
  unfold Logic.Move.new_with_isize
  split <;> rfl

theorem logic_add_in_dir_go_shape (dir : Int × Int) (pos : Nat × Nat) (b : Logic.ChessBoard) :
    ∀ (fuel : Nat) (t : Int × Int) (m : Logic.Move), m ∈ Logic.add_in_dir_go dir pos b fuel t →
      m.original = pos ∧ m.move_type = .Normal := by
  intro fuel
  induction fuel with
  | zero => intro t m h; simp [Logic.add_in_dir_go] at h
  | succ n ih =>
    intro t m h
    rw [Logic.add_in_dir_go] at h
    split at h
    · rcases List.mem_cons.mp h with h1 | h2
      · subst h1; exact ⟨rfl, rfl⟩
      · split at h2
        · simp at h2
        · exact ih _ m h2
    · simp at h

theorem logic_pawn_moves_shape (p : Logic.ChessPiece) (b : Logic.ChessBoard)
    (m : Logic.Move) (h : m ∈ Logic.pawn_moves p b) :
    m.original = p.pos ∧
      (m.move_type = .Normal ∨ ∃ pt, m.move_type = .Promotion pt) := by
  simp only [Logic.pawn_moves, List.mem_append, List.mem_filterMap, List.mem_map,
    List.mem_singleton, List.mem_cons, List.not_mem_nil, or_false] at h
  rcases h with h | ⟨a, ha, hbody⟩
  · split_ifs at h <;>
      simp only [List.mem_append, List.mem_map, List.mem_singleton, List.mem_cons,
        List.not_mem_nil, or_false, List.mem_filter] at h <;>
      first
      | exact h.elim
      | (rcases h with ⟨pt, _, rfl⟩ | rfl <;> simp)
      | (rcases h with rfl | rfl <;> simp)
      | (rcases h with ⟨pt, _, rfl⟩; simp)
      | (rcases h with rfl; simp)
  · split at hbody
    · split at hbody
      · rename_i tp _
        split_ifs at hbody
        injection hbody with hb
        subst hb
        simp
      · exact absurd hbody (by simp)
    · exact absurd hbody (by simp)

theorem logic_castling_moves_mem (b : Logic.ChessBoard) (p : Logic.ChessPiece)
    (m : Logic.Move) (h : m ∈ Logic.castling_moves b p) :
    Logic.is_in_check b p.color = false ∧ p.first_move_at = none ∧
    ∃ rook, (some rook) ∈ b.pieces ∧ rook.piece_type = .Rook ∧ rook.color = p.color ∧
      rook.first_move_at = none ∧
      m = Logic.Move.new_with_isize p.pos
            ((p.pos.1 : Int) + 2 * ((rook.pos.1 : Int) - (p.pos.1 : Int)).sign,
             (p.pos.2 : Int))
            (.Castling rook.pos (((rook.pos.1 : Int) - (p.pos.1 : Int)).sign)) := by
  unfold Logic.castling_moves at h
  split at h
  · rename_i hguard
    simp only [List.mem_filterMap] at h
    obtain ⟨rook, hrookmem, hbody⟩ := h
    obtain ⟨op, hopmem, hop⟩ := hrookmem
    obtain ⟨r0, hr0, hfr⟩ := Option.bind_eq_some.mp hop
    split at hfr
    · rename_i hpred
      injection hfr with hfr2
      subst hfr2
      subst hr0
      split at hbody
      · injection hbody with hb
        exact ⟨hguard.1, hguard.2, _, hopmem, hpred.1, hpred.2.1, hpred.2.2, hb.symm⟩
      · exact Option.noConfusion hbody
    · exact Option.noConfusion hfr
  · simp at h

theorem logic_mem_valid_moves (b : Logic.ChessBoard) (ig : Bool) (c : Logic.PieceColor)
    (m : Logic.Move) : m ∈ Logic.valid_moves b ig c ↔
      ∃ p, p ∈ Logic.pieces_of b c ∧ m ∈ Logic.pseudo_moves b p ig ∧
        m.is_valid b ig = true := by
  unfold Logic.valid_moves Logic.piece_valid_moves
  simp [List.mem_flatMap, List.mem_filter, and_assoc]

theorem logic_pieces_of_elim (b : Logic.ChessBoard) (c : Logic.PieceColor)
    (p : Logic.ChessPiece) (hp : p ∈ Logic.pieces_of b c) :
    p.color = c ∧ (some p) ∈ b.pieces := by
  unfold Logic.pieces_of at hp
  simp only [List.mem_filterMap] at hp
  obtain ⟨op, hopmem, hop⟩ := hp
  obtain ⟨p0, hp0, hif⟩ := Option.bind_eq_some.mp hop
  split at hif
  · rename_i hcol
    injection hif with h2
    subst h2
    subst hp0
    exact ⟨hcol, hopmem⟩
  · exact Option.noConfusion hif

theorem logic_wf_piece_facts (b : Logic.ChessBoard) (hwf : Logic.well_formed b = true)
    (p : Logic.ChessPiece) (hp : (some p) ∈ b.pieces) :
    p.pos.1 < 8 ∧ p.pos.2 < 8 ∧ Logic.piece_at b p.pos = some p := by
  unfold Logic.well_formed at hwf
  rw [Bool.and_eq_true] at hwf
  obtain ⟨hlen, hall⟩ := hwf
  simp only [decide_eq_true_eq] at hlen
  obtain ⟨i, hi⟩ := List.mem_iff_get?.mp hp
  have hilt : i < b.pieces.length := by
    by_contra hge
    rw [List.get?_eq_none.mpr (Nat.le_of_not_lt hge)] at hi
    exact Option.noConfusion hi
  have hirange : i ∈ List.range 64 := List.mem_range.mpr (by omega)
  have := (List.all_eq_true.mp hall) i hirange
  rw [hi] at this
  simp only [decide_eq_true_eq] at this
  obtain ⟨h1, h2, h3⟩ := this
  refine ⟨h1, h2, ?_⟩
  unfold Logic.piece_at
  rw [h3, hi]
  rfl

theorem logic_is_valid_true_elim (b : Logic.ChessBoard) (m : Logic.Move)
    (h : Logic.is_valid_true b m = true) :
    m.target.1 < 8 ∧ m.target.2 < 8 ∧
      ∃ piece, Logic.piece_at b m.original = some piece ∧
        ∀ tp, Logic.piece_at b m.target = some tp → piece.color ≠ tp.color := by
  unfold Logic.is_valid_true at h
  split at h
  · exact absurd h (by simp)
  · rename_i hb
    push_neg at hb
    refine ⟨hb.1, hb.2, ?_⟩
    split at h
    · exact absurd h (by simp)
    · rename_i piece hpiece
      refine ⟨piece, hpiece, fun tp htp => ?_⟩
      rw [htp] at h
      simpa using h

theorem logic_is_valid_true_of_is_valid (b : Logic.ChessBoard) (m : Logic.Move) (ig : Bool)
    (h : m.is_valid b ig = true) : Logic.is_valid_true b m = true := by
  unfold Logic.Move.is_valid at h
  rw [Bool.and_eq_true] at h
  exact h.1

theorem logic_pseudo_moves_classify (b : Logic.ChessBoard) (p : Logic.ChessPiece)
    (m : Logic.Move) (h : m ∈ Logic.pseudo_moves b p false) :
    m.original = p.pos ∧
    ((p.piece_type ≠ .King ∧ (m.move_type = .Normal ∨ ∃ pt, m.move_type = .Promotion pt)) ∨
     (p.piece_type = .King ∧
       (m ∈ Logic.castling_moves b p ∨
        ∃ d ∈ Logic.king_offsets,
          m = Logic.Move.new_with_isize p.pos
                ((p.pos.1 : Int) + d.1, (p.pos.2 : Int) + d.2) .Normal))) := by
  obtain ⟨pt, pos, color, hmv⟩ := p
  cases pt <;>
    simp only [Logic.pseudo_moves, Logic.pseudo_moves_true] at h
  case King =>
    rcases List.mem_append.mp h with h | h
    · split at h
      · simp at h
      · refine ⟨?_, Or.inr ⟨rfl, Or.inl h⟩⟩
        obtain ⟨_, _, rook, _, _, _, _, hmeq⟩ := logic_castling_moves_mem b _ m h
        rw [hmeq, logic_new_with_isize_original]
    · simp only [Logic.king_adjacent_moves, List.mem_map] at h
      obtain ⟨d, hd, rfl⟩ := h
      exact ⟨logic_new_with_isize_original _ _ _, Or.inr ⟨rfl, Or.inr ⟨d, hd, rfl⟩⟩⟩
  case Knight =>
    simp only [Logic.knight_moves, List.mem_map] at h
    obtain ⟨d, _, rfl⟩ := h
    exact ⟨logic_new_with_isize_original _ _ _,
      Or.inl ⟨by simp, Or.inl (logic_new_with_isize_move_type _ _ _)⟩⟩
  case Pawn =>
    obtain ⟨ho, hmt⟩ := logic_pawn_moves_shape _ b m h
    exact ⟨ho, Or.inl ⟨by simp, hmt⟩⟩
  all_goals
    obtain ⟨dir, _, hd⟩ := List.mem_flatMap.mp h
    rw [Logic.add_in_dir] at hd
    obtain ⟨ho, hmt⟩ := logic_add_in_dir_go_shape dir _ b 8 _ m hd
    exact ⟨ho, Or.inl ⟨by simp, Or.inl hmt⟩⟩

theorem logic_toDigits_len_aux :
    ∀ y : Nat, y < 8 → (Nat.toDigits 10 (usizeWrap (8 - (y : Int)))).length = 1 := by decide

theorem logic_squareChars_len2 (q : Nat × Nat) (hy : q.2 < 8) :
    ∃ a b, Logic.squareChars q = [a, b] := by
  obtain ⟨b0, hb⟩ := List.length_eq_one.mp (logic_toDigits_len_aux q.2 hy)
  exact ⟨_, b0, by rw [Logic.squareChars, hb]⟩

theorem logic_square_roundtrip_aux : ∀ x : Nat, x < 8 → ∀ y : Nat, y < 8 →
    Logic.charsToSquare (Logic.squareChars (x, y)) = some (x, y) := by decide

theorem logic_square_roundtrip (q : Nat × Nat) (hx : q.1 < 8) (hy : q.2 < 8) :
    Logic.charsToSquare (Logic.squareChars q) = some q :=
  logic_square_roundtrip_aux q.1 hx q.2 hy

theorem logic_to_chars_nonpromo (m : Logic.Move)
    (h : ∀ pt, m.move_type ≠ .Promotion pt) :
    m.to_chars = Logic.squareChars m.original ++ Logic.squareChars m.target := by
  unfold Logic.Move.to_chars
  split
  · rename_i pt heq
    exact absurd heq (h pt)
  · rfl

theorem logic_to_chars_promotion (m : Logic.Move) (pt : Logic.PieceType)
    (h : m.move_type = .Promotion pt) :
    m.to_chars = Logic.squareChars m.original ++ Logic.squareChars m.target ++
      [match pt with
       | .King => 'k' | .Queen => 'q' | .Rook => 'r'
       | .Bishop => 'b' | .Knight => 'n' | .Pawn => 'p'] := by
  unfold Logic.Move.to_chars
  rw [h]

theorem logic_kind_roundtrip (pt : Logic.PieceType) :
    Logic.piece_type_from_str
      [match pt with
       | .King => 'k' | .Queen => 'q' | .Rook => 'r'
       | .Bishop => 'b' | .Knight => 'n' | .Pawn => 'p'] = some pt := by
  cases pt <;> decide

theorem logic_from_str_four (b : Logic.ChessBoard) (o t : Nat × Nat)
    (ho1 : o.1 < 8) (ho2 : o.2 < 8) (ht1 : t.1 < 8) (ht2 : t.2 < 8) :
    Logic.Move.from_str (Logic.squareChars o ++ Logic.squareChars t) b =
      (match Logic.piece_at b o with
       | none => .error ()
       | some piece =>
         if piece.piece_type = .King ∧ ((o.1 : Int) - (t.1 : Int)).natAbs = 2 then
           .ok (Logic.Move.new o t
             (.Castling (if t.1 < 4 then 0 else 7, t.2) ((t.1 : Int) - (o.1 : Int)).sign))
         else .ok (Logic.Move.new o t .Normal)) := by
  obtain ⟨a1, a2, ha⟩ := logic_squareChars_len2 o ho2
  obtain ⟨c1, c2, hc⟩ := logic_squareChars_len2 t ht2
  have hpo : Logic.charsToSquare [a1, a2] = some o := by
    rw [← ha]; exact logic_square_roundtrip o ho1 ho2
  have hpt : Logic.charsToSquare [c1, c2] = some t := by
    rw [← hc]; exact logic_square_roundtrip t ht1 ht2
  rw [ha, hc]
  show Logic.Move.from_str [a1, a2, c1, c2] b = _
  unfold Logic.Move.from_str
  simp only [List.length_cons, List.length_nil, List.take, List.drop]
  rw [hpo, hpt]

theorem logic_from_str_four_piece (b : Logic.ChessBoard) (o t : Nat × Nat)
    (piece : Logic.ChessPiece) (ho1 : o.1 < 8) (ho2 : o.2 < 8) (ht1 : t.1 < 8)
    (ht2 : t.2 < 8) (hp : Logic.piece_at b o = some piece) :
    Logic.Move.from_str (Logic.squareChars o ++ Logic.squareChars t) b =
      (if piece.piece_type = .King ∧ ((o.1 : Int) - (t.1 : Int)).natAbs = 2 then
        .ok (Logic.Move.new o t
          (.Castling (if t.1 < 4 then 0 else 7, t.2) ((t.1 : Int) - (o.1 : Int)).sign))
      else .ok (Logic.Move.new o t .Normal)) := by
  rw [logic_from_str_four b o t ho1 ho2 ht1 ht2, hp]

theorem logic_from_str_five (b : Logic.ChessBoard) (o t : Nat × Nat)
    (ho1 : o.1 < 8) (ho2 : o.2 < 8) (ht1 : t.1 < 8) (ht2 : t.2 < 8)
    (k : Char) (pt : Logic.PieceType) (hk : Logic.piece_type_from_str [k] = some pt) :
    Logic.Move.from_str (Logic.squareChars o ++ Logic.squareChars t ++ [k]) b =
      .ok (Logic.Move.new o t (.Promotion pt)) := by
  obtain ⟨a1, a2, ha⟩ := logic_squareChars_len2 o ho2
  obtain ⟨c1, c2, hc⟩ := logic_squareChars_len2 t ht2
  have hpo : Logic.charsToSquare [a1, a2] = some o := by
    rw [← ha]; exact logic_square_roundtrip o ho1 ho2
  have hpt : Logic.charsToSquare [c1, c2] = some t := by
    rw [← hc]; exact logic_square_roundtrip t ht1 ht2
  rw [ha, hc]
  show Logic.Move.from_str [a1, a2, c1, c2, k] b = _
  unfold Logic.Move.from_str
  simp only [List.length_cons, List.length_nil, List.take, List.drop]
  rw [hpo, hpt, hk]

theorem int_sign_cases (z : Int) : z.sign = 1 ∨ z.sign = 0 ∨ z.sign = -1 := by
  rcases z with (_ | n) | n <;> simp [Int.sign]

/-- Claim C7, amended: for every well-formed board and every legal move of the
side to move, encoding the move to its text token and parsing it back against
the same board yields `Ok` of the very same move — provided that, if the move
is a castling move, its rook stands on the standard file (0 for queenside, 7
for kingside) of the move's row (`castling_standard`). For a castling rook on
any other file the parser reconstructs the wrong rook square (counterexample
below). -/
theorem move_text_round_trip (b : Logic.ChessBoard) (m : Logic.Move)
    (hwf : Logic.well_formed b = true)
    (hm : m ∈ Logic.valid_moves b false b.turn)
    (hstd : Logic.castling_standard m = true) :
    Logic.Move.from_str m.to_chars b = .ok m := by
  obtain ⟨p, hpmem, hps, hv⟩ := (logic_mem_valid_moves b false b.turn m).mp hm
  obtain ⟨hcol, hsome⟩ := logic_pieces_of_elim b b.turn p hpmem
  obtain ⟨hx8, hy8, hpa⟩ := logic_wf_piece_facts b hwf p hsome
  have hvt := logic_is_valid_true_of_is_valid b m false hv
  obtain ⟨ht1, ht2, piece, hpiece, hsame⟩ := logic_is_valid_true_elim b m hvt
  obtain ⟨horig, hclass⟩ := logic_pseudo_moves_classify b p m hps
  have hpao : Logic.piece_at b m.original = some p := by rw [horig]; exact hpa
  have hpp : piece = p := by rw [hpao] at hpiece; injection hpiece with h2; exact h2.symm
  subst hpp
  have ho1 : m.original.1 < 8 := by rw [horig]; exact hx8
  have ho2 : m.original.2 < 8 := by rw [horig]; exact hy8
  rcases hclass with ⟨hnk, hmt⟩ | ⟨hk, hkm⟩
  · rcases hmt with hmt | ⟨pt, hmt⟩
    · rw [logic_to_chars_nonpromo m (by rw [hmt]; simp),
        logic_from_str_four_piece b m.original m.target piece ho1 ho2 ht1 ht2 hpao,
        if_neg (by rintro ⟨hkk, _⟩; exact hnk hkk), ← hmt]
      rfl
    · rw [logic_to_chars_promotion m pt hmt,
        logic_from_str_five b m.original m.target ho1 ho2 ht1 ht2 _ pt (logic_kind_roundtrip pt),
        ← hmt]
      rfl
  · rcases hkm with hcm | ⟨d, hd, hmeq⟩
    · -- castling move
      obtain ⟨_, _, rook, _, _, _, _, hmeq⟩ := logic_castling_moves_mem b piece m hcm
      rw [Logic.Move.new_with_isize] at hmeq
      split at hmeq
      · exfalso
        rw [hmeq] at ht1
        have h9 : usizeMax < 8 := ht1
        exact absurd h9 (by decide)
      · rename_i hnneg
        push_neg at hnneg
        have hmtT : m.move_type =
            .Castling rook.pos (((rook.pos.1 : Int) - (piece.pos.1 : Int)).sign) := by
          rw [hmeq]
        have htar : m.target =
            (((piece.pos.1 : Int) + 2 * ((rook.pos.1 : Int) - (piece.pos.1 : Int)).sign).toNat,
             piece.pos.2) := by
          rw [hmeq]
          simp
        have htar1 : (m.target.1 : Int) =
            (piece.pos.1 : Int) + 2 * ((rook.pos.1 : Int) - (piece.pos.1 : Int)).sign := by
          rw [htar]
          exact Int.toNat_of_nonneg hnneg.1
        have hsne : ((rook.pos.1 : Int) - (piece.pos.1 : Int)).sign ≠ 0 := by
          intro h0
          have : m.target = m.original := by
            rw [htar, horig, h0]
            simp
          have hsp : Logic.piece_at b m.target = some piece := by rw [this]; exact hpao
          exact hsame piece hsp rfl
        have hs1 : ((rook.pos.1 : Int) - (piece.pos.1 : Int)).sign = 1 ∨
            ((rook.pos.1 : Int) - (piece.pos.1 : Int)).sign = -1 := by
          rcases int_sign_cases ((rook.pos.1 : Int) - (piece.pos.1 : Int)) with h | h | h
          · exact Or.inl h
          · exact absurd h hsne
          · exact Or.inr h
        have habs : ((m.original.1 : Int) - (m.target.1 : Int)).natAbs = 2 := by
          rw [htar1, horig]
          rcases hs1 with h | h <;> rw [h] <;> simp
        have hsign : ((m.target.1 : Int) - (m.original.1 : Int)).sign =
            ((rook.pos.1 : Int) - (piece.pos.1 : Int)).sign := by
          rw [htar1, horig]
          rcases hs1 with h | h <;> rw [h] <;> simp <;> rfl
        have hstd2 : rook.pos =
            ((if m.target.1 < 4 then (0 : Nat) else 7), m.target.2) := by
          unfold Logic.castling_standard at hstd
          rw [hmtT] at hstd
          simpa using hstd
        rw [logic_to_chars_nonpromo m (by rw [hmtT]; simp),
          logic_from_str_four_piece b m.original m.target piece ho1 ho2 ht1 ht2 hpao,
          if_pos ⟨hk, habs⟩, hsign, ← hstd2, ← hmtT]
        rfl
    · -- king adjacent normal move
      rw [Logic.Move.new_with_isize] at hmeq
      split at hmeq
      · exfalso
        rw [hmeq] at ht1
        have h9 : usizeMax < 8 := ht1
        exact absurd h9 (by decide)
      · rename_i hnneg
        push_neg at hnneg
        have hmtT : m.move_type = .Normal := by rw [hmeq]
        have htar1 : (m.target.1 : Int) = (piece.pos.1 : Int) + d.1 := by
          rw [hmeq]
          exact Int.toNat_of_nonneg hnneg.1
        have habs : ((m.original.1 : Int) - (m.target.1 : Int)).natAbs ≠ 2 := by
          rw [htar1, horig]
          have : (piece.pos.1 : Int) - ((piece.pos.1 : Int) + d.1) = -d.1 := by ring
          rw [this]
          fin_cases hd <;> decide
        rw [logic_to_chars_nonpromo m (by rw [hmtT]; simp),
          logic_from_str_four_piece b m.original m.target piece ho1 ho2 ht1 ht2 hpao,
          if_neg (by rintro ⟨_, hc2⟩; exact habs hc2), ← hmtT]
        rfl

/-- Claim C7 counterexample: on a board with a white rook on d1 that has never
moved, the legal castling move e1-c1 with rook origin d1 encodes to "e1c1",
but parsing "e1c1" reconstructs the rook origin as a1 (the 4-character branch
recomputes it as file 0 or 7 from the target square alone), so the round trip
returns a different move and the unamended claim is false. -/
theorem castling_round_trip_fails_for_nonstandard_rook :
    (Logic.Move.new (4, 7) (2, 7) (.Castling (3, 7) (-1))) ∈
      Logic.valid_moves Logic.rook_d1_board false Logic.rook_d1_board.turn ∧
    Logic.Move.from_str ((Logic.Move.new (4, 7) (2, 7) (.Castling (3, 7) (-1))).to_chars)
        Logic.rook_d1_board =
      .ok (Logic.Move.new (4, 7) (2, 7) (.Castling (0, 7) (-1))) ∧
    Logic.Move.new (4, 7) (2, 7) (.Castling (0, 7) (-1)) ≠
      Logic.Move.new (4, 7) (2, 7) (.Castling (3, 7) (-1)) :=
  ⟨by decide, by decide, by decide⟩

theorem move_text_round_trip_witness :
    Logic.well_formed Logic.castle_kingside_board = true ∧
    (Logic.Move.new (4, 7) (6, 7) (.Castling (7, 7) 1) ∈
      Logic.valid_moves Logic.castle_kingside_board false Logic.castle_kingside_board.turn) ∧
    Logic.castling_standard (Logic.Move.new (4, 7) (6, 7) (.Castling (7, 7) 1)) = true ∧
    Logic.Move.from_str ((Logic.Move.new (4, 7) (6, 7) (.Castling (7, 7) 1)).to_chars)
      Logic.castle_kingside_board = .ok (Logic.Move.new (4, 7) (6, 7) (.Castling (7, 7) 1)) :=
  ⟨by decide, by decide, by decide,
    move_text_round_trip Logic.castle_kingside_board
      (Logic.Move.new (4, 7) (6, 7) (.Castling (7, 7) 1)) (by decide) (by decide) (by decide)⟩
